import Mathlib

/-!
# Verification of the dltp delta-pack encoder/decoder

A shallow embedding, in Lean, of the core algorithms of the `dltp`
repository (a MediaWiki-dump delta packer written in Go), together with
proofs and refutations of the frozen specification claims.

Bytes are modelled as `Nat` values (< 256 in well-formed streams), byte
streams as `List Nat`.  Machine integers are modelled as `Nat`/`Int` with
explicit `% 2^w` where Go's wraparound semantics matter.  Go loops are
modelled either structurally or with an explicit fuel argument that is
proved (or chosen) large enough; Go `panic`s become `Except` errors.

Embedded components, with their Go sources:
* varints (`encoding/binary` PutUvarint/ReadUvarint/PutVarint/ReadVarint,
  as used by the repository);
* `hash/fnv` 32-bit FNV-1a (`dpfile.dpchecksum`);
* `sourceref.SourceRef` (Write/ReadSource);
* the diff engine (`diff.go`: `hash`, `match`, `Diff`, `Patch`);
* the delta-pack record writer/reader (`dpfile.go`: `DiffTask.Diff`,
  `DPWriter.WriteSegment`, `DPWriter.Close`, `DPReader.ReadSegment`);
* the chunker's `SegmentReader.ReadTo` (over an abstract `ReadNext`
  oracle, since only `ReadTo` is in scope);
* the block-indexed bzip2 `readerAt.ReadAt` (over an abstract
  block-decoding oracle).
-/
namespace Dltp

/-- Decidable equality for `Except`, so concrete runs of the embedded
functions can be checked by `decide`. -/
instance instDecEqExcept {ε α : Type} [DecidableEq ε] [DecidableEq α] :
    DecidableEq (Except ε α)
  | .error a, .error b =>
    if h : a = b then .isTrue (by rw [h]) else .isFalse (by simp [h])
  | .error _, .ok _ => .isFalse (by simp)
  | .ok _, .error _ => .isFalse (by simp)
  | .ok a, .ok b =>
    if h : a = b then .isTrue (by rw [h]) else .isFalse (by simp [h])

/-! ## Go variable-length integers (encoding/binary) -/

/-- One step of Go `binary.PutUvarint`: emit 7-bit groups, low first,
high bit set on continuation.  The fuel bounds the loop exactly as the
10-byte `MaxVarintLen64` buffer does; 10 units of fuel are enough for
any `x < 2^64`. -/
def putUvarintF : Nat → Nat → List Nat
  | 0, _ => []
  | fuel + 1, x =>
    if x < 0x80 then [x]
    else (x % 0x80 + 0x80) :: putUvarintF fuel (x / 0x80)

/-- Go `binary.PutUvarint` (for values in the uint64 range). -/
def putUvarint (x : Nat) : List Nat := putUvarintF 10 x

/-- Go `binary.ReadUvarint`: reads up to `MaxVarintLen64 = 10` bytes;
a 10th byte that is a continuation byte or greater than 1 is an
overflow error (`none`).  `i` counts bytes read so far, `x` is the
accumulated value and `shift` the bit position of the next group;
accumulation is `mod 2^64` as in Go. -/
def readUvarintF : Nat → Nat → Nat → Nat → List Nat → Option (Nat × List Nat)
  | 0, _, _, _, _ => none
  | _ + 1, _, _, _, [] => none
  | fuel + 1, i, x, shift, b :: rest =>
    if b < 0x80 then
      if i = 9 ∧ b > 1 then none
      else some ((x + b * 2 ^ shift) % 2 ^ 64, rest)
    else
      readUvarintF fuel (i + 1) ((x + b % 0x80 * 2 ^ shift) % 2 ^ 64) (shift + 7) rest

/-- Go `binary.ReadUvarint`. -/
def readUvarint (s : List Nat) : Option (Nat × List Nat) :=
  readUvarintF 10 0 0 0 s

/-- Zig-zag encoding used by Go `binary.PutVarint`:
`ux := uint64(x) << 1; if x < 0 { ux = ^ux }`.  For every `x` in the
int64 range this closed form agrees with the Go bit manipulation. -/
def zigzag (x : Int) : Nat :=
  if 0 ≤ x then 2 * x.toNat else 2 * (-x).toNat - 1

/-- Inverse zig-zag, as in Go `binary.ReadVarint`:
`x := int64(ux >> 1); if ux&1 != 0 { x = ^x }`. -/
def unzigzag (u : Nat) : Int :=
  if u % 2 = 0 then (u / 2 : Nat) else -((u / 2 : Nat) : Int) - 1

/-- Go `binary.PutVarint`. -/
def putVarint (x : Int) : List Nat := putUvarint (zigzag x)

/-- Go `binary.ReadVarint`. -/
def readVarint (s : List Nat) : Option (Int × List Nat) :=
  match readUvarint s with
  | none => none
  | some (u, rest) => some (unzigzag u, rest)

/-! ## 32-bit FNV-1a (hash/fnv), and big-endian 32-bit words -/

/-- One step of FNV-1a: xor in the byte, multiply by the prime, mod 2^32. -/
def fnvStep (h b : Nat) : Nat := (h ^^^ b) * 16777619 % 2 ^ 32

/-- `dpfile.dpchecksum`: 32-bit FNV-1a of a byte slice. -/
def dpchecksum (text : List Nat) : Nat := text.foldl fnvStep 2166136261

/-- Big-endian 4-byte encoding of a 32-bit value, as produced by Go's
`binary.Write(w, binary.BigEndian, uint32)`. -/
def be32 (v : Nat) : List Nat :=
  [v / 2 ^ 24 % 256, v / 2 ^ 16 % 256, v / 2 ^ 8 % 256, v % 256]

/-- Reading a big-endian uint32, as by `binary.Read(..., &checksum)`. -/
def readBE32 : List Nat → Option (Nat × List Nat)
  | b0 :: b1 :: b2 :: b3 :: rest =>
      some (b0 * 2 ^ 24 + b1 * 2 ^ 16 + b2 * 2 ^ 8 + b3, rest)
  | _ => none

/-! ## sourceref.SourceRef -/

/-- `sourceref.SourceRef`: `(SourceNumber int64, Start uint64, Length uint64)`. -/
structure SourceRef where
  sourceNumber : Int
  start : Nat
  length : Nat
  deriving DecidableEq, Repr

/-- `sourceref.SourceNotFound = SourceRef{-1, 0, 0}`. -/
def SourceNotFound : SourceRef := ⟨-1, 0, 0⟩

/-- `sourceref.PreviousSegment = SourceRef{-2, 0, 0}`. -/
def PreviousSegment : SourceRef := ⟨-2, 0, 0⟩

/-- `sourceref.EOFMarker = SourceRef{0, 0, 0}`. -/
def EOFMarker : SourceRef := ⟨0, 0, 0⟩

/-- `SourceRef.Write`: signed varint source number, then unsigned varint
start and length. -/
def srefBytes (s : SourceRef) : List Nat :=
  putVarint s.sourceNumber ++ putUvarint s.start ++ putUvarint s.length

/-- `sourceref.ReadSource`: the inverse of `SourceRef.Write`. -/
def readSource (s : List Nat) : Option (SourceRef × List Nat) :=
  match readVarint s with
  | none => none
  | some (sn, s1) =>
    match readUvarint s1 with
    | none => none
    | some (st, s2) =>
      match readUvarint s2 with
      | none => none
      | some (ln, s3) => some (⟨sn, st, ln⟩, s3)

/-- The int64/uint64 ranges a `SourceRef`'s fields live in. -/
def srefInRange (s : SourceRef) : Prop :=
  -(2 ^ 63) ≤ s.sourceNumber ∧ s.sourceNumber < 2 ^ 63 ∧
    s.start < 2 ^ 64 ∧ s.length < 2 ^ 64

instance (s : SourceRef) : Decidable (srefInRange s) := by
  unfold srefInRange; infer_instance

/-! ## The diff engine (diff.go)

The Go code writes instructions (varint-prefixed literals and copies)
directly into a `bytes.Buffer`; here the match phase first produces an
explicit instruction list which a separate function serializes exactly as
`putLiteral`/`putCopy` do.  The buzhash table `buzTbl` is initialized in
Go from `math/rand` (an arbitrary but fixed table of `uint64`s); the
embedding takes it as a parameter `tbl`. -/

/-- `diff.hashSz = 131072`: number of hash-table buckets. -/
def hashSz : Nat := 131072

/-- `diff.hMinMatch = 8`: rolling-hash window width and minimum
accepted match length. -/
def hMinMatch : Nat := 8

/-- One halving step of the Go bit-counting loop in `diff.hashMask`;
64 units of fuel cover every uint64 value. -/
def shiftCountF : Nat → Nat → Nat
  | 0, _ => 0
  | fuel + 1, r => if r = 0 then 0 else shiftCountF fuel (r / 2) + 1

/-- The number of iterations of the Go bit-counting loop
`for r > 0 { r >>= 1; i++ }` in `diff.hashMask`. -/
def shiftCount (r : Nat) : Nat := shiftCountF 64 r

/-- `diff.hashMask(sz, hSz)`: a mask of high bits.  Note the body uses
the package-level `hashSz` (not its second parameter), and the only call
site passes `sz = hashSz`, so the result is always `3 <<< 62`. -/
def hashMask (sz hSz : Nat) : Nat :=
  let ratio := sz / hashSz
  let r := ratio * 2
  let i := shiftCount r
  if i ≤ 64 then (2 ^ i - 1) * 2 ^ (64 - i) else 0

/-- A diff instruction: either literal bytes (emitted by `putLiteral`)
or a copy of `[start, endPos)` from the reference (emitted by `putCopy`). -/
inductive DInstr where
  | lit : List Nat → DInstr
  | cpy : Nat → Nat → DInstr
  deriving DecidableEq, Repr

/-- Serialization of one instruction, mirroring `putLiteral` (signed
varint length, then raw bytes; cursor advances by the length) and
`putCopy` (signed varint `-(end-start)`, then signed varint
`start - cursor`; cursor becomes `end`). -/
def emitInstr (cursor : Nat) : DInstr → List Nat × Nat
  | .lit bs => (putVarint bs.length ++ bs, cursor + bs.length)
  | .cpy st en => (putVarint (-(en - st : Int)) ++ putVarint ((st : Int) - cursor), en)

/-- Serialize an instruction list, threading the cursor. -/
def emitAll (cursor : Nat) : List DInstr → List Nat
  | [] => []
  | ins :: rest =>
    let (bytes, cursor') := emitInstr cursor ins
    bytes ++ emitAll cursor' rest

/-- The state of `diff.MatchState` relevant to hashing and matching:
the bucket table (`h`, plus `hNil` marking Go's nil slice), the `base`
offset and the cached mask/bucket-count. -/
structure MState where
  h : Nat → Nat
  hNil : Bool
  base : Nat
  hMask : Nat
  hBits : Nat

/-- A fresh `MatchState` as allocated by `NewWriter` (zero value: nil
table, zero base). -/
def freshMState : MState :=
  { h := fun _ => 0, hNil := true, base := 0, hMask := 0, hBits := 0 }

/-- The indexing loop of `diff.MatchState.hash`: for `i` from
`hMinMatch` to `len a - 1`, roll the hash and store `i + base + offs`
(uint32 arithmetic) in bucket `v &&& hBits` whenever the sparsity filter
`v &&& hMask = hMask` passes.  Structured on fuel; `a.length` is enough. -/
def hashLoopF (tbl : Nat → Nat) (a : List Nat) (base offs : Nat)
    (hMask hBits : Nat) : Nat → Nat → Nat → (Nat → Nat) → (Nat → Nat)
  | 0, _, _, h => h
  | fuel + 1, i, v, h =>
    if i < a.length then
      let v' := v ^^^ tbl (a.getD i 0) ^^^ tbl (a.getD (i - hMinMatch) 0)
      let h' := if v' &&& hMask = hMask
        then fun k => if k = v' &&& hBits then (i % 2 ^ 32 + base + offs) % 2 ^ 32 else h k
        else h
      hashLoopF tbl a base offs hMask hBits fuel (i + 1) v' h'
    else h

/-- The initial rolling-hash value over a window `w` (XOR of table
entries of the first `hMinMatch` bytes). -/
def initHash (tbl : Nat → Nat) (w : List Nat) : Nat :=
  (w.take hMinMatch).foldl (fun v b => v ^^^ tbl b) 0

/-- `diff.MatchState.hash(a, offs)`.  If `len a < hMinMatch` the state
is unchanged (`s.h = s.h[0:]` is a no-op).  Otherwise a nil table is
freshly allocated; a non-nil table is zeroed (with `base` reset) when
`hMax - hVal(len a) < base` would make entries wrap below `base`. -/
def mhash (tbl : Nat → Nat) (st : MState) (a : List Nat) (offs : Nat) : MState :=
  if a.length < hMinMatch then st
  else
    let reset : Bool := !st.hNil && decide (2 ^ 32 - 1 - a.length % 2 ^ 32 < st.base)
    let h0 : Nat → Nat := if st.hNil then fun _ => 0
      else if reset then fun _ => 0 else st.h
    let base := if reset then 0 else st.base
    let hBits := hashSz - 1
    let hMask := hashMask hashSz a.length
    let v0 := initHash tbl a
    let h' := hashLoopF tbl a base offs hMask hBits a.length hMinMatch v0 h0
    { h := h', hNil := false, base := base, hMask := hMask, hBits := hBits }

/-- The backward extension of `MatchState.match` around candidate
`(i, j)` (`for aStart >= 0 && bStart >= 0 && a[aStart] == b[bStart]`):
the number of consecutive equal byte pairs going down from `(i, j)`
inclusive.  Callers always pass in-bounds `i < len a`, `j < len b`. -/
def backF (a b : List Nat) : Nat → Nat → Nat
  | 0, j => if a.getD 0 0 = b.getD j 0 then 1 else 0
  | i + 1, 0 => if a.getD (i + 1) 0 = b.getD 0 0 then 1 else 0
  | i + 1, j + 1 =>
    if a.getD (i + 1) 0 = b.getD (j + 1) 0 then backF a b i j + 1 else 0

/-- The forward extension of `MatchState.match`
(`for l < lMax && a[aStart+l] == b[bStart+l]`): the number of
consecutive equal in-bounds byte pairs going up from `(i, j)`. -/
def fwdF (a b : List Nat) : Nat → Nat → Nat → Nat
  | 0, _, _ => 0
  | fuel + 1, i, j =>
    if i < a.length ∧ j < b.length ∧ a.getD i 0 = b.getD j 0 then
      fwdF a b fuel (i + 1) (j + 1) + 1
    else 0

/-- Result of the candidate scan in `MatchState.match`: either a fatal
runtime condition (Go would panic: a stored offset past the end of
`a`), a found match `(aStart, bStart, l)`, or no match. -/
inductive ScanRes where
  | panicked : ScanRes
  | found : Nat → Nat → Nat → ScanRes
  | nomatch : ScanRes
  deriving DecidableEq, Repr

/-- Examination of one hash-table candidate `aStart0` against position
`i` of `b`, as inlined in `MatchState.match`: Go panics when the stored
offset is at or past the end of `a` (explicitly when past, via the
index-out-of-range runtime check when at).  When `a[aStart0] != b[i]`
the backward loop makes no step and the forward loop re-checks the same
mismatching pair, so `l` stays -1 and the candidate is rejected;
otherwise the match is extended both ways and rejected only if shorter
than `hMinMatch`. -/
def candAt (a b : List Nat) (aStart0 i : Nat) : ScanRes :=
  if aStart0 ≥ a.length then .panicked
  else if a.getD aStart0 0 ≠ b.getD i 0 then .nomatch
  else
    let bc := backF a b aStart0 i
    let fc := fwdF a b a.length (aStart0 + 1) (i + 1)
    let l := bc + fc
    if l < hMinMatch then .nomatch
    else .found (aStart0 + 1 - bc) (i + 1 - bc) l

/-- The scan loop of `MatchState.match` over `b` (`for i := hMinMatch;
i < len(b); i++`): roll the hash, look up filtered positions in the
table, examine candidates and accept the first long-enough match. -/
def scanBF (tbl : Nat → Nat) (a b : List Nat) (h : Nat → Nat)
    (base hMask hBits : Nat) : Nat → Nat → Nat → ScanRes
  | 0, _, _ => .nomatch
  | fuel + 1, i, v =>
    if i < b.length then
      let v' := v ^^^ tbl (b.getD i 0) ^^^ tbl (b.getD (i - hMinMatch) 0)
      if v' &&& hMask ≠ hMask then
        scanBF tbl a b h base hMask hBits fuel (i + 1) v'
      else
        let hv := h (v' &&& hBits)
        if hv < base then
          scanBF tbl a b h base hMask hBits fuel (i + 1) v'
        else
          match candAt a b (hv - base) i with
          | .panicked => .panicked
          | .nomatch => scanBF tbl a b h base hMask hBits fuel (i + 1) v'
          | .found aS bS l => .found aS bS l
    else .nomatch

/-- The outer loop of `diff.MatchState.match`, producing instructions.
If `b` is short or the table is nil, the whole of `b` is one literal;
otherwise the scan either finds a match (emit pending literal and the
copy, continue past the match) or fails (emit the rest as a literal). -/
def matchF (tbl : Nat → Nat) (a : List Nat) (h : Nat → Nat)
    (hNil : Bool) (base hMask hBits : Nat) :
    Nat → List Nat → Except String (List DInstr)
  | 0, _ => .error "out of fuel"
  | fuel + 1, b =>
    if b.length ≤ hMinMatch ∨ hNil then
      if 0 < b.length then .ok [.lit b] else .ok []
    else
      match scanBF tbl a b h base hMask hBits b.length hMinMatch (initHash tbl b) with
      | .panicked => .error "aStart was high"
      | .nomatch => .ok [.lit b]
      | .found aStart bStart l =>
        match matchF tbl a h hNil base hMask hBits fuel (b.drop (bStart + l)) with
        | .error e => .error e
        | .ok instrs =>
          if 0 < bStart then
            .ok (.lit (b.take bStart) :: .cpy aStart (aStart + l) :: instrs)
          else
            .ok (.cpy aStart (aStart + l) :: instrs)

/-- `diff.MatchState.Diff` as an instruction list: hash `A`, run the
match loop on `B`, and advance `base` by `len A` (uint32).  Returns the
instruction list together with the post-state. -/
def diffInstrs (tbl : Nat → Nat) (st : MState) (a b : List Nat) :
    Except String (List DInstr × MState) :=
  let st1 := mhash tbl st a 0
  match matchF tbl a st1.h st1.hNil st1.base st1.hMask st1.hBits (b.length + 1) b with
  | .error e => .error e
  | .ok instrs =>
    .ok (instrs, { st1 with base := (st1.base + a.length % 2 ^ 32) % 2 ^ 32 })

/-- The byte stream `MatchState.Diff` writes: the serialized
instructions (cursor starting at 0) followed by the end marker
(`putEnd` writes a single zero byte). -/
def diffBytes (tbl : Nat → Nat) (st : MState) (a b : List Nat) :
    Except String (List Nat × MState) :=
  match diffInstrs tbl st a b with
  | .error e => .error e
  | .ok (instrs, st') => .ok (emitAll 0 instrs ++ [0], st')

/-! ## diff.Patch

`Patch(a, diff)` maintains a cursor into `a` and an output buffer.  The
embedding additionally records, for each copy instruction actually
executed, the range `(cursorStart, copyLen)` of the read it performs on
`a` — the trace lets us state that every read is in bounds.  A Go
`panic` becomes an `.error` carrying the panic message.  Fuel bounds
the loop; each iteration consumes at least one input byte, so
`s.length + 1` units are always enough. -/

/-- One run of the `diff.Patch` loop.  Returns the recorded read trace
and either the panic message or the output plus unconsumed stream. -/
def patchF (a : List Nat) :
    Nat → Int → List Nat → List (Int × Nat) → List Nat →
    List (Int × Nat) × Except String (List Nat × List Nat)
  | 0, _, _, trace, _ => (trace, .error "out of fuel")
  | fuel + 1, cursor, out, trace, s =>
    match readVarint s with
    | none => (trace, .error "Truncated diff")
    | some (instrFirst, s1) =>
      if 0 < instrFirst then
        -- literal
        let literalLen := instrFirst.toNat
        if s1.length < literalLen then
          (trace, .error "Literal length was more than content available (file truncated or was not a diff?)")
        else
          patchF a fuel (cursor + literalLen) (out ++ s1.take literalLen)
            trace (s1.drop literalLen)
      else if instrFirst = 0 then
        (trace, .ok (out, s1))
      else
        -- copy
        let copyLen := (-instrFirst).toNat
        match readVarint s1 with
        | none => (trace, .error "copy instruction truncated, weird")
        | some (copyMove, s2) =>
          let cursor' := cursor + copyMove
          if cursor' < 0 then
            (trace, .error "Copy would start before start of source")
          else if cursor' > a.length then
            (trace, .error "Copy would start after end of source--truncated source?")
          else if cursor' + copyLen > a.length then
            (trace, .error "Copy would end after end of source--truncated source?")
          else
            patchF a fuel (cursor' + copyLen)
              (out ++ (a.drop cursor'.toNat).take copyLen)
              (trace ++ [(cursor', copyLen)]) s2

/-- `diff.Patch(a, diff)`: the output and unconsumed remainder (or the
panic message). -/
def patch (a : List Nat) (s : List Nat) : Except String (List Nat × List Nat) :=
  (patchF a (s.length + 1) 0 [] [] s).2

/-- The reference reads `diff.Patch(a, diff)` performs. -/
def patchReads (a : List Nat) (s : List Nat) : List (Int × Nat) :=
  (patchF a (s.length + 1) 0 [] [] s).1

/-! ## Round trip of the diff engine

`match` only ever emits non-empty literals (`putLiteral` panics on empty
ones) and copies of verified in-bounds matching ranges.  We capture this
as a validity predicate, show the match loop establishes it with the
emitted pieces concatenating to `b`, and show `patch` inverts the
serialization of any valid instruction list. -/

/-- Validity of an emitted instruction against reference `a`. -/
def instrOK (a : List Nat) : DInstr → Prop
  | .lit bs => bs ≠ []
  | .cpy st en => st < en ∧ en ≤ a.length

/-- The output bytes an instruction contributes (literal bytes, or the
referenced slice of `a`). -/
def instrBytesOut (a : List Nat) : DInstr → List Nat
  | .lit bs => bs
  | .cpy st en => (a.drop st).take (en - st)

/-- Concatenated contributions of an instruction list. -/
def outJoin (a : List Nat) : List DInstr → List Nat
  | [] => []
  | ins :: r => instrBytesOut a ins ++ outJoin a r

/-- Total length of literal bytes in an instruction list. -/
def litSum : List DInstr → Nat
  | [] => 0
  | .lit bs :: r => bs.length + litSum r
  | .cpy _ _ :: r => litSum r

/-! ## The delta-pack record layer (dpfile.go)

A record, as produced by `DiffTask.Diff`, is: the `SourceRef` varints,
the 32-bit big-endian FNV-1a of the reference slice, the diff
instruction stream, and the 32-bit big-endian FNV-1a of the target.
`DPWriter.Close` terminates the stream with an `EOFMarker` ref.
`DPReader.ReadSegment` reads records back, fetching the reference slice
from the opened sources via `ReadAt`. -/

/-- `dpfile.MaxSourceLength = 1e8`. -/
def MaxSourceLength : Nat := 100000000

/-- The capping step of `DPWriter.WriteSegment` (lines 222-225): an
oversized reference degrades to `SourceNotFound` with a nil slice. -/
def writeSegCap (source : SourceRef) (aText : List Nat) : SourceRef × List Nat :=
  if source.length > MaxSourceLength then (SourceNotFound, []) else (source, aText)

/-- `DiffTask.Diff`: one record's bytes (source ref, reference
checksum, diff stream, output checksum). -/
def taskDiff (tbl : Nat → Nat) (st : MState) (source : SourceRef)
    (a b : List Nat) : Except String (List Nat × MState) :=
  match diffBytes tbl st a b with
  | .error e => .error e
  | .ok (d, st') =>
    .ok (srefBytes source ++ be32 (dpchecksum a) ++ d ++ be32 (dpchecksum b), st')

/-- Encoding one segment `b` against reference `a` located by `source`,
from a fresh writer, followed by `Close`'s `EOFMarker` (the binary part
of the pack, after the text preamble). -/
def encodePack (tbl : Nat → Nat) (source : SourceRef) (a b : List Nat) :
    Except String (List Nat) :=
  match writeSegCap source a with
  | (src, aT) =>
    match taskDiff tbl freshMState src aT b with
    | .error e => .error e
    | .ok (rec, _) => .ok (rec ++ srefBytes EOFMarker)

/-- The ways `DPReader.ReadSegment` can fail.  Go `panic`s in all of
them; `negIndexPanic` is the runtime index-out-of-range panic raised by
`dpr.sources[source.SourceNumber]` on a negative source number, the
rest are explicit `panic` calls. -/
inductive RErr where
  | readErr : String → RErr
  | tooLargeSource : RErr
  | chainingNotImplemented : RErr
  | tooHighSource : RErr
  | negIndexPanic : RErr
  | readAtFailed : RErr
  | patchPanic : String → RErr
  | checksumMismatch : Bool → RErr
  deriving DecidableEq, Repr

/-- The outcome of one successful `ReadSegment` call: the bytes written
to the output, the reconstructed text and the reference slice it was
patched from, the updated `lastSeg`, the unconsumed stream, and whether
to continue (false exactly on `EOFMarker`). -/
structure SegResult where
  written : List Nat
  text : List Nat
  orig : List Nat
  lastSeg : Option (List Nat)
  rest : List Nat
  more : Bool
  deriving DecidableEq, Repr

/-- The reference fetch of `ReadSegment`: `readBuf` sized to
`source.Length`, then (unless the ref is `SourceNotFound`) the
`PreviousSegment` rejection, the too-high source number check, the
index into `dpr.sources` (a runtime panic when negative), and a full
`ReadAt` of `Length` bytes at `Start`. -/
def fetchOrig (sources : List (List Nat)) (source : SourceRef) :
    Except RErr (List Nat) :=
  if source = PreviousSegment then .error .chainingNotImplemented
  else if source ≠ SourceNotFound then
    if source.sourceNumber ≥ sources.length then .error .tooHighSource
    else if source.sourceNumber < 0 then .error .negIndexPanic
    else
      let src := sources.getD source.sourceNumber.toNat []
      if source.start + source.length ≤ src.length then
        .ok ((src.drop source.start).take source.length)
      else .error .readAtFailed
  else .ok (List.replicate source.length 0)

/-- `DPReader.ReadSegment`, over the byte stream after the preamble. -/
def readSegment (sources : List (List Nat)) (changeDump : Bool)
    (lastSeg : Option (List Nat)) (s : List Nat) : Except RErr SegResult :=
  match readSource s with
  | none => .error (.readErr "couldn't read source information")
  | some (source, s1) =>
    if source = EOFMarker then
      .ok { written := if changeDump then lastSeg.getD [] else [],
            text := [], orig := [], lastSeg := lastSeg, rest := s1, more := false }
    else if source.length > MaxSourceLength then .error .tooLargeSource
    else
      match fetchOrig sources source with
      | .error e => .error e
      | .ok orig =>
        match readBE32 s1 with
        | none => .error (.readErr "couldn't read expected checksum")
        | some (sourceCksum, s2) =>
          match patch orig s2 with
          | .error e => .error (.patchPanic e)
          | .ok (text, s3) =>
            match readBE32 s3 with
            | none => .error (.readErr "couldn't read expected checksum")
            | some (fileCksum, s4) =>
              if dpchecksum text ≠ fileCksum then
                .error (.checksumMismatch (dpchecksum orig = sourceCksum))
              else
                .ok { written :=
                        if ¬ changeDump ∨ text ≠ orig ∨ lastSeg = none
                        then text else [],
                      text := text, orig := orig,
                      lastSeg := some text, rest := s4, more := true }

/-- The decoder's main loop: `ReadSegment` until it returns false,
concatenating everything written to the output. -/
def readAllF (sources : List (List Nat)) (changeDump : Bool) :
    Nat → Option (List Nat) → List Nat → Except RErr (List Nat)
  | 0, _, _ => .error (.readErr "out of fuel")
  | fuel + 1, lastSeg, s =>
    match readSegment sources changeDump lastSeg s with
    | .error e => .error e
    | .ok r =>
      if r.more then
        match readAllF sources changeDump fuel r.lastSeg r.rest with
        | .error e => .error e
        | .ok out => .ok (r.written ++ out)
      else .ok r.written

/-- Decode a whole pack body (every record until the `EOFMarker`). -/
def decodePack (sources : List (List Nat)) (changeDump : Bool)
    (s : List Nat) : Except RErr (List Nat) :=
  readAllF sources changeDump (s.length + 1) none s

/-! ## Patch read bounds (claim C6) -/

/-! ## Minimum match length (claim C7) and identity diffs (claim C5) -/

/-- A fixed stand-in for the Go `buzTbl` (whose entries come from
`math/rand`): bytes equal to 1 hash to a value passing the constant
sparsity filter `3 <<< 62`, everything else to 0. -/
def buzTblSample : Nat → Nat := fun c => if c = 1 then 3 * 2 ^ 62 else 0

/-- The stream the claim says an identity diff consists of: one copy
instruction covering `[0, len x)` (cursor delta 0), then the
terminator. -/
def identityCopyStream (x : List Nat) : List Nat :=
  emitAll 0 [DInstr.cpy 0 x.length] ++ [0]

/-! ## The source-length cap (claim C8) and source-number validation
(claim C10) -/

/-! ## Chunker `ReadTo` and the writer's source selection (claim C9)

`SegmentReader.ReadTo` repeatedly calls `ReadNext` until the current
key reaches the requested one; here `ReadNext` is abstracted as a
stream of its future results (only `ReadTo`'s own lines are in scope).
`WriteSegment` then tries each reference in order, keeping the last
`(text, sourceRef)` answer and stopping at the first non-empty text. -/

/-- `mwxmlchunk.PastEndKey = 1<<63 - 1`. -/
def PastEndKey : Int := 2 ^ 63 - 1

/-- `mwxmlchunk.BeforeStart = -PastEndKey`. -/
def BeforeStart : Int := -PastEndKey

/-- One `ReadNext` outcome: the segment text, its key, its source ref,
and whether `ReadNext` reported `io.EOF`. -/
structure RNResult where
  text : List Nat
  key : Int
  sr : SourceRef
  eof : Bool
  deriving DecidableEq, Repr

/-- The loop of `SegmentReader.ReadTo` (`for reachedKey < key { ... }`)
over the abstract `ReadNext` stream.  An exhausted stream behaves as
`ReadNext` at end of file: no text, `PastEndKey`, the reader's own
source ref shape (`dflt`), and `io.EOF` (which breaks the loop). -/
def readToLoop (dflt : SourceRef) :
    List RNResult → Int → Int → List Nat → SourceRef →
    List Nat × Int × SourceRef × List RNResult
  | ups, reached, key, text, sr =>
    if reached < key then
      match ups with
      | [] => ([], PastEndKey, dflt, [])
      | r :: rest =>
        if r.eof then (r.text, r.key, r.sr, rest)
        else readToLoop dflt rest r.key key r.text r.sr
    else (text, reached, sr, ups)

/-- `SegmentReader.ReadTo(key)`: run the loop from the current key; on
exact hit return the reached segment, otherwise nil text and
`SourceNotFound`. -/
def readTo (dflt : SourceRef) (current : Int) (ups : List RNResult)
    (key : Int) : List Nat × SourceRef × List RNResult :=
  match readToLoop dflt ups current key [] SourceNotFound with
  | (text, reached, sr, ups') =>
    if reached = key then (text, sr, ups')
    else ([], SourceNotFound, ups')

/-- A reference chunker's state as `WriteSegment` sees it. -/
structure ChunkSt where
  current : Int
  ups : List RNResult
  dflt : SourceRef
  deriving DecidableEq, Repr

/-- The reference-selection loop of `DPWriter.WriteSegment` (lines
205-220): starting from `(SourceNotFound, nil)`, call `ReadTo(key)` on
each reference in order, keeping the answer, and stop at the first
non-empty text. -/
def selectSource (key : Int) : List ChunkSt → SourceRef × List Nat →
    SourceRef × List Nat
  | [], acc => acc
  | st :: rest, _ =>
    match readTo st.dflt st.current st.ups key with
    | (aText, sr, _) =>
      if 0 < aText.length then (sr, aText)
      else selectSource key rest (sr, aText)

/-! ## Block-indexed bzip2 `ReadAt` (claim C2)

`bz2blocks.readerAt.ReadAt` is modelled over an abstract block decoder:
`blocks` is the index (pairs of `(InBitPos, OutBytePos)`, in storage
order), and `decodeAt bitPos` is the decompressed byte stream obtained
by seeking the bit reader to `bitPos` and decoding from there — for a
consistent index, `decodeAt blk.InBitPos = stream.drop blk.OutBytePos`.
The Go loop scans all blocks, remembering `startBitPos` of the last
block with `OutBytePos <= off`; the companion variable `startBytePos`
is initialized to -1 **and never assigned** (the loop only updates
`startBitPos`), so the discard phase drops `off - (-1) = off + 1`
bytes. -/

/-- `readerAt.ReadAt`, with the dead `startBytePos := -1` kept exactly
as in the source.  The chunked discard loop is modelled by its net
effect: dropping `remaining` bytes (an error if fewer are available). -/
def bz2ReadAt (blocks : List (Int × Int)) (decodeAt : Int → List Nat)
    (bufLen : Nat) (off : Int) : Except String (List Nat) :=
  let startBitPos := blocks.foldl (fun acc blk => if blk.2 ≤ off then blk.1 else acc) (-1)
  let startBytePos : Int := -1
  if startBitPos = -1 then .error "EOF"
  else
    let stream := decodeAt startBitPos
    let remaining := off - startBytePos
    if remaining ≤ (stream.length : Int) then
      .ok ((stream.drop remaining.toNat).take bufLen)
    else .error "unexpected EOF"

/-- Sequential decompression advanced to offset `off`, reading
`bufLen` bytes: the reference behavior the claim compares against. -/
def seqReadAt (stream : List Nat) (bufLen : Nat) (off : Int) : List Nat :=
  (stream.drop off.toNat).take bufLen

theorem unzigzag_zigzag (x : Int) : unzigzag (zigzag x) = x := by
  unfold zigzag unzigzag
  by_cases h : 0 ≤ x
  · rw [if_pos h]
    split <;> omega
  · rw [if_neg h]
    split <;> omega

theorem zigzag_lt (x : Int) (h1 : -(2 ^ 63) ≤ x) (h2 : x < 2 ^ 63) :
    zigzag x < 2 ^ 64 := by
  unfold zigzag
  split
  · have : x.toNat < 2 ^ 63 := by omega
    omega
  · have : (-x).toNat ≤ 2 ^ 63 := by omega
    omega

/-- `putUvarintF` with enough fuel encodes-then-decodes to the identity.
The invariant tracks the byte counter `i` and shift of the reader. -/
theorem readUvarintF_putUvarintF (fuel : Nat) (x : Nat) (i shift : Nat)
    (acc : Nat) (rest : List Nat)
    (hx : x < 2 ^ (64 - 7 * i))
    (hle : i ≤ 9)
    (hi : i + fuel = 10)
    (hacc : acc < 2 ^ shift)
    (hshift : shift = 7 * i)
    (hsmall : acc + x * 2 ^ shift < 2 ^ 64) :
    readUvarintF fuel i acc shift (putUvarintF fuel x ++ rest) =
      some (acc + x * 2 ^ shift, rest) := by
  induction fuel generalizing x i shift acc with
  | zero => omega
  | succ fuel ih =>
    unfold putUvarintF readUvarintF
    have hxsplit : x % 0x80 + 0x80 * (x / 0x80) = x := Nat.mod_add_div x 0x80
    have hcombine : acc + x % 0x80 * 2 ^ shift + x / 0x80 * 2 ^ (shift + 7) =
        acc + x * 2 ^ shift := by
      rw [pow_add]
      have : acc + x % 0x80 * 2 ^ shift + x / 0x80 * (2 ^ shift * 2 ^ 7) =
          acc + (x % 0x80 + 0x80 * (x / 0x80)) * 2 ^ shift := by ring
      rw [this, hxsplit]
    by_cases hlt : x < 0x80
    · simp only [if_pos hlt, List.cons_append]
      have hni : ¬(i = 9 ∧ x > 1) := by
        rintro ⟨h9, hgt⟩
        subst h9
        norm_num at hx
        omega
      simp only [if_pos hlt, if_neg hni, List.nil_append]
      rw [Nat.mod_eq_of_lt hsmall]
    · simp only [if_neg hlt, List.cons_append]
      have hb : ¬(x % 0x80 + 0x80 < 0x80) := by omega
      simp only [if_neg hb]
      have hi9 : i ≠ 9 := by
        intro h9
        subst h9
        norm_num at hx
        omega
      have hx' : x / 0x80 < 2 ^ (64 - 7 * (i + 1)) := by
        have h2 : 64 - 7 * i = (64 - 7 * (i + 1)) + 7 := by omega
        rw [h2] at hx
        apply Nat.div_lt_of_lt_mul
        calc x < 2 ^ ((64 - 7 * (i + 1)) + 7) := hx
          _ = 2 ^ (64 - 7 * (i + 1)) * 128 := by rw [pow_add]; norm_num
          _ = 128 * 2 ^ (64 - 7 * (i + 1)) := by ring
      have hmod : (x % 0x80 + 0x80) % 0x80 = x % 0x80 := by omega
      rw [hmod]
      have hmodmul : x % 0x80 * 2 ^ shift ≤ x * 2 ^ shift :=
        Nat.mul_le_mul_right _ (Nat.mod_le _ _)
      have hacc' : acc + x % 0x80 * 2 ^ shift < 2 ^ (shift + 7) := by
        have hm : x % 0x80 < 0x80 := Nat.mod_lt _ (by norm_num)
        have h1 : x % 0x80 * 2 ^ shift ≤ 127 * 2 ^ shift :=
          Nat.mul_le_mul_right _ (by omega)
        calc acc + x % 0x80 * 2 ^ shift < 2 ^ shift + 127 * 2 ^ shift := by omega
          _ = 2 ^ shift * 128 := by ring
          _ = 2 ^ (shift + 7) := by rw [pow_add]; norm_num
      have hsm : acc + x % 0x80 * 2 ^ shift < 2 ^ 64 :=
        lt_of_le_of_lt (Nat.add_le_add_left hmodmul acc) hsmall
      rw [Nat.mod_eq_of_lt hsm]
      rw [ih (x / 0x80) (i + 1) (shift + 7) (acc + x % 0x80 * 2 ^ shift)
        hx' (by omega) (by omega) hacc' (by omega) (by rw [hcombine]; exact hsmall)]
      rw [hcombine]

/-- Uvarint round trip for uint64-range values. -/
theorem readUvarint_putUvarint (x : Nat) (rest : List Nat) (hx : x < 2 ^ 64) :
    readUvarint (putUvarint x ++ rest) = some (x, rest) := by
  have := readUvarintF_putUvarintF 10 x 0 0 0 rest
    (by simpa using hx) (by norm_num) rfl (by norm_num) rfl (by simpa using hx)
  simpa [readUvarint, putUvarint] using this

/-- Varint round trip for int64-range values. -/
theorem readVarint_putVarint (x : Int) (rest : List Nat)
    (h1 : -(2 ^ 63) ≤ x) (h2 : x < 2 ^ 63) :
    readVarint (putVarint x ++ rest) = some (x, rest) := by
  unfold readVarint putVarint
  rw [readUvarint_putUvarint _ _ (zigzag_lt x h1 h2)]
  show some (unzigzag (zigzag x), rest) = some (x, rest)
  rw [unzigzag_zigzag]

theorem putUvarintF_ne_nil (fuel x : Nat) (h : 0 < fuel) :
    putUvarintF fuel x ≠ [] := by
  cases fuel with
  | zero => omega
  | succ n =>
    unfold putUvarintF
    split <;> simp

theorem putUvarint_ne_nil (x : Nat) : putUvarint x ≠ [] :=
  putUvarintF_ne_nil 10 x (by norm_num)

theorem readBE32_be32 (v : Nat) (rest : List Nat) (hv : v < 2 ^ 32) :
    readBE32 (be32 v ++ rest) = some (v, rest) := by
  simp only [be32, List.cons_append, List.nil_append, readBE32]
  congr 2
  omega

theorem foldl_fnvStep_lt (l : List Nat) (s : Nat) (hs : s < 2 ^ 32) :
    List.foldl fnvStep s l < 2 ^ 32 := by
  induction l generalizing s with
  | nil => simpa using hs
  | cons b bs ih =>
    rw [List.foldl_cons]
    exact ih _ (Nat.mod_lt _ (by norm_num))

theorem dpchecksum_lt (text : List Nat) : dpchecksum text < 2 ^ 32 :=
  foldl_fnvStep_lt text 2166136261 (by norm_num)

theorem readSource_srefBytes (s : SourceRef) (rest : List Nat)
    (h : srefInRange s) :
    readSource (srefBytes s ++ rest) = some (s, rest) := by
  obtain ⟨h1, h2, h3, h4⟩ := h
  simp only [readSource, srefBytes, List.append_assoc,
    readVarint_putVarint _ _ h1 h2, readUvarint_putUvarint _ _ h3,
    readUvarint_putUvarint _ _ h4]

theorem readVarint_zero (rest : List Nat) :
    readVarint (0 :: rest) = some (0, rest) := by
  have h : putVarint 0 = [0] := rfl
  rw [show (0 : Nat) :: rest = putVarint 0 ++ rest from by rw [h]; rfl]
  exact readVarint_putVarint 0 rest (by norm_num) (by norm_num)

theorem putUvarint_length_pos (x : Nat) : 0 < (putUvarint x).length := by
  have := putUvarint_ne_nil x
  cases hp : putUvarint x with
  | nil => exact absurd hp this
  | cons y ys => simp

theorem emitInstr_length_pos (cursor : Nat) (ins : DInstr) :
    0 < (emitInstr cursor ins).1.length := by
  cases ins with
  | lit bs =>
    simp only [emitInstr, List.length_append]
    have := putUvarint_length_pos (zigzag bs.length)
    unfold putVarint at *
    omega
  | cpy st en =>
    simp only [emitInstr, List.length_append]
    have := putUvarint_length_pos (zigzag (-(en - st : Int)))
    unfold putVarint at *
    omega

theorem emitAll_length_ge (cursor : Nat) (instrs : List DInstr) :
    instrs.length ≤ (emitAll cursor instrs).length := by
  induction instrs generalizing cursor with
  | nil => simp [emitAll]
  | cons ins r ih =>
    simp only [emitAll, List.length_append, List.length_cons]
    have h1 := emitInstr_length_pos cursor ins
    have h2 := ih (emitInstr cursor ins).2
    omega

theorem patchF_step_end (a : List Nat) (fuel : Nat) (c : Int) (out : List Nat)
    (trace : List (Int × Nat)) (rest : List Nat) :
    patchF a (fuel + 1) c out trace (0 :: rest) = (trace, .ok (out, rest)) := by
  simp only [patchF, readVarint_zero]
  norm_num

theorem patchF_step_lit (a : List Nat) (fuel : Nat) (cursor : Nat)
    (out : List Nat) (trace : List (Int × Nat)) (bs tail : List Nat)
    (hbs : bs ≠ []) (hrange : (bs.length : Int) < 2 ^ 63) :
    patchF a (fuel + 1) cursor out trace (putVarint bs.length ++ (bs ++ tail)) =
      patchF a fuel (cursor + bs.length) (out ++ bs) trace tail := by
  have hlen : (0 : Nat) < bs.length := List.length_pos.mpr hbs
  have hlow : -(2 : Int) ^ 63 ≤ (bs.length : Int) := by
    have : (0 : Int) ≤ (bs.length : Int) := Int.natCast_nonneg _
    omega
  simp only [patchF, readVarint_putVarint _ _ hlow hrange]
  have hpos : (0 : Int) < (bs.length : Int) := by exact_mod_cast hlen
  rw [if_pos hpos]
  simp only [Int.toNat_natCast]
  have hnoerr : ¬ ((bs ++ tail).length < bs.length) := by
    simp only [List.length_append]; omega
  rw [if_neg hnoerr, List.take_left, List.drop_left]

theorem patchF_step_cpy (a : List Nat) (fuel : Nat) (cursor : Nat)
    (out : List Nat) (trace : List (Int × Nat)) (st en : Nat) (tail : List Nat)
    (hlt : st < en) (hle : en ≤ a.length)
    (hr1 : -(2 : Int) ^ 63 ≤ -(en - st : Int))
    (hr3 : -(2 : Int) ^ 63 ≤ (st : Int) - cursor)
    (hr4 : (st : Int) - cursor < 2 ^ 63) :
    patchF a (fuel + 1) cursor out trace
        (putVarint (-(en - st : Int)) ++ (putVarint ((st : Int) - cursor) ++ tail)) =
      patchF a fuel en (out ++ (a.drop st).take (en - st))
        (trace ++ [((st : Int), en - st)]) tail := by
  have hlt' : (st : Int) < en := by exact_mod_cast hlt
  have hle' : (en : Int) ≤ a.length := by exact_mod_cast hle
  have hr2 : (-(en - st : Int)) < 2 ^ 63 := by omega
  simp only [patchF, readVarint_putVarint _ _ hr1 hr2]
  have hno1 : ¬ (0 : Int) < -(en - st : Int) := by omega
  have hno2 : ¬ (-(en - st : Int)) = 0 := by omega
  rw [if_neg hno1, if_neg hno2]
  simp only [readVarint_putVarint _ _ hr3 hr4]
  have hcur : (cursor : Int) + ((st : Int) - cursor) = st := by ring
  rw [hcur]
  have hg1 : ¬ ((st : Int) < 0) := by
    have : (0 : Int) ≤ (st : Int) := Int.natCast_nonneg _
    omega
  have hcl : (-(-(en - st : Int))).toNat = en - st := by omega
  rw [hcl]
  have hg2 : ¬ ((st : Int) > a.length) := by omega
  have hcast : ((en - st : Nat) : Int) = (en : Int) - st := by omega
  have hg3 : ¬ ((st : Int) + ((en - st : Nat) : Int) > (a.length : Int)) := by
    rw [hcast]; omega
  rw [if_neg hg1, if_neg hg2, if_neg hg3]
  simp only [Int.toNat_natCast]
  have hnext : (st : Int) + ((en - st : Nat) : Int) = ((en : Nat) : Int) := by
    rw [hcast]; ring
  rw [hnext]

/-- `patch` inverts the serialization of any valid instruction list:
running the `Patch` loop on `emitAll cursor instrs ++ 0 :: rest` from
the same cursor appends exactly the instructions' output bytes and
stops at the end marker with `rest` unconsumed.  `C` is a fixed bound
keeping every varint in the int64 range. -/
theorem patchF_emitAll (a : List Nat) (C : Nat) (hCb : C < 2 ^ 62)
    (instrs : List DInstr) :
    ∀ fuel cursor out trace rest,
      (∀ ins ∈ instrs, instrOK a ins) →
      cursor + litSum instrs ≤ C →
      a.length + litSum instrs ≤ C →
      instrs.length + 1 ≤ fuel →
      (patchF a fuel cursor out trace (emitAll cursor instrs ++ 0 :: rest)).2 =
        .ok (out ++ outJoin a instrs, rest) := by
  have hC63 : (C : Int) < 2 ^ 63 := by
    calc (C : Int) < 2 ^ 62 := by exact_mod_cast hCb
      _ < 2 ^ 63 := by norm_num
  induction instrs with
  | nil =>
    intro fuel cursor out trace rest _ _ _ hfuel
    match fuel, hfuel with
    | fuel + 1, _ =>
      rw [show emitAll cursor [] ++ 0 :: rest = 0 :: rest from rfl]
      rw [patchF_step_end]
      simp [outJoin]
  | cons ins r ih =>
    intro fuel cursor out trace rest hok hc ha hfuel
    match fuel, hfuel with
    | fuel + 1, hfuel =>
      cases ins with
      | lit bs =>
        have hbs : bs ≠ [] := by
          have h := hok (DInstr.lit bs) (List.mem_cons_self _ _)
          simpa [instrOK] using h
        have hsum : litSum (DInstr.lit bs :: r) = bs.length + litSum r := rfl
        rw [hsum] at hc ha
        have hrange : (bs.length : Int) < 2 ^ 63 := by
          have h1 : bs.length ≤ C := by omega
          have : (bs.length : Int) ≤ C := by exact_mod_cast h1
          omega
        have hser : emitAll cursor (DInstr.lit bs :: r) ++ 0 :: rest =
            putVarint bs.length ++ (bs ++ (emitAll (cursor + bs.length) r ++ 0 :: rest)) := by
          simp [emitAll, emitInstr, List.append_assoc]
        have hflen : r.length + 1 + 1 ≤ fuel + 1 := by simpa using hfuel
        rw [hser, patchF_step_lit a fuel cursor out trace bs _ hbs hrange]
        rw [show ((cursor : Int) + (bs.length : Int)) = ((cursor + bs.length : Nat) : Int)
          from by push_cast; ring]
        rw [ih fuel (cursor + bs.length) (out ++ bs) trace rest
          (fun i hi => hok i (List.mem_cons_of_mem _ hi))
          (by omega) (by omega) (by omega)]
        simp [outJoin, instrBytesOut, List.append_assoc]
      | cpy st en =>
        have hok0 : st < en ∧ en ≤ a.length := by
          have h := hok (DInstr.cpy st en) (List.mem_cons_self _ _)
          simpa [instrOK] using h
        obtain ⟨hlt, hle⟩ := hok0
        have hsum : litSum (DInstr.cpy st en :: r) = litSum r := rfl
        rw [hsum] at hc ha
        have hle' : (en : Int) ≤ a.length := by exact_mod_cast hle
        have haC : (a.length : Int) ≤ C := by
          have : a.length ≤ C := by omega
          exact_mod_cast this
        have hcC : (cursor : Int) ≤ C := by
          have : cursor ≤ C := by omega
          exact_mod_cast this
        have hr1 : -(2 : Int) ^ 63 ≤ -(en - st : Int) := by omega
        have hr3 : -(2 : Int) ^ 63 ≤ (st : Int) - cursor := by
          have : (0 : Int) ≤ st := by positivity
          omega
        have hr4 : (st : Int) - cursor < 2 ^ 63 := by
          have h1 : (st : Int) < en := by exact_mod_cast hlt
          omega
        have hser : emitAll cursor (DInstr.cpy st en :: r) ++ 0 :: rest =
            putVarint (-(en - st : Int)) ++ (putVarint ((st : Int) - cursor) ++
              (emitAll en r ++ 0 :: rest)) := by
          simp [emitAll, emitInstr, List.append_assoc]
        have hflen : r.length + 1 + 1 ≤ fuel + 1 := by simpa using hfuel
        rw [hser, patchF_step_cpy a fuel cursor out trace st en _ hlt hle hr1 hr3 hr4]
        rw [ih fuel en (out ++ (a.drop st).take (en - st))
          (trace ++ [((st : Int), en - st)]) rest
          (fun i hi => hok i (List.mem_cons_of_mem _ hi))
          (by omega) (by omega) (by omega)]
        simp [outJoin, instrBytesOut, List.append_assoc]

theorem backF_le (a b : List Nat) : ∀ i j, backF a b i j ≤ min i j + 1 := by
  intro i
  induction i with
  | zero =>
    intro j
    unfold backF
    split <;> omega
  | succ i ih =>
    intro j
    cases j with
    | zero =>
      unfold backF
      split <;> omega
    | succ j =>
      unfold backF
      split
      · have := ih j
        omega
      · omega

theorem backF_pos (a b : List Nat) (i j : Nat)
    (heq : a.getD i 0 = b.getD j 0) : 1 ≤ backF a b i j := by
  cases i with
  | zero =>
    unfold backF
    rw [if_pos heq]
  | succ i =>
    cases j with
    | zero =>
      unfold backF
      rw [if_pos heq]
    | succ j =>
      unfold backF
      rw [if_pos heq]
      omega

theorem backF_match (a b : List Nat) :
    ∀ i j m, m < backF a b i j → a.getD (i - m) 0 = b.getD (j - m) 0 := by
  intro i
  induction i with
  | zero =>
    intro j m hm
    unfold backF at hm
    split at hm
    · interval_cases m
      · simpa using ‹a.getD 0 0 = b.getD j 0›
    · omega
  | succ i ih =>
    intro j m hm
    cases j with
    | zero =>
      unfold backF at hm
      split at hm
      · interval_cases m
        · simpa using ‹a.getD (i + 1) 0 = b.getD 0 0›
      · omega
    | succ j =>
      unfold backF at hm
      split at hm
      · cases m with
        | zero => simpa using ‹a.getD (i + 1) 0 = b.getD (j + 1) 0›
        | succ m =>
          have := ih j m (by omega)
          simpa using this
      · omega

theorem fwdF_bounds (a b : List Nat) :
    ∀ fuel i j, i ≤ a.length → j ≤ b.length →
      i + fwdF a b fuel i j ≤ a.length ∧ j + fwdF a b fuel i j ≤ b.length := by
  intro fuel
  induction fuel with
  | zero => intro i j hi hj; simp [fwdF]; omega
  | succ fuel ih =>
    intro i j hi hj
    unfold fwdF
    split
    · rename_i hcond
      obtain ⟨h1, h2, _⟩ := hcond
      have := ih (i + 1) (j + 1) (by omega) (by omega)
      omega
    · omega

theorem fwdF_match (a b : List Nat) :
    ∀ fuel i j m, m < fwdF a b fuel i j →
      a.getD (i + m) 0 = b.getD (j + m) 0 := by
  intro fuel
  induction fuel with
  | zero => intro i j m hm; simp [fwdF] at hm
  | succ fuel ih =>
    intro i j m hm
    unfold fwdF at hm
    split at hm
    · rename_i hcond
      cases m with
      | zero => simpa using hcond.2.2
      | succ m =>
        have := ih (i + 1) (j + 1) m (by omega)
        simpa [Nat.add_assoc, Nat.add_comm 1 m] using this
    · omega

/-- What a successful candidate examination guarantees: the match is at
least `hMinMatch` long, lies inside both `a` and `b` (given `i` inside
`b`), and the two ranges agree byte for byte. -/
theorem candAt_found (a b : List Nat) (aStart0 i : Nat) (aS bS l : Nat)
    (hib : i < b.length)
    (hres : candAt a b aStart0 i = .found aS bS l) :
    hMinMatch ≤ l ∧ aS + l ≤ a.length ∧ bS + l ≤ b.length ∧
      ∀ m, m < l → a.getD (aS + m) 0 = b.getD (bS + m) 0 := by
  unfold candAt at hres
  simp only [] at hres
  split at hres
  case isTrue => simp at hres
  case isFalse hlen =>
    split at hres
    case isTrue => simp at hres
    case isFalse heqd =>
      have heq : a.getD aStart0 0 = b.getD i 0 := by
        by_contra hne
        exact heqd hne
      split at hres
      case isTrue => simp at hres
      case isFalse hshort =>
        simp only [ScanRes.found.injEq] at hres
        obtain ⟨haS, hbS, hl⟩ := hres
        have haLt : aStart0 < a.length := by omega
        have hbc1 : 1 ≤ backF a b aStart0 i := backF_pos a b aStart0 i heq
        have hbcle : backF a b aStart0 i ≤ min aStart0 i + 1 := backF_le a b aStart0 i
        have hfwd := fwdF_bounds a b a.length (aStart0 + 1) (i + 1)
          (by omega) (by omega)
        refine ⟨by omega, by omega, by omega, ?_⟩
        intro m hm
        subst haS hbS hl
        by_cases hmbc : m < backF a b aStart0 i
        · have hb1 := backF_match a b aStart0 i (backF a b aStart0 i - 1 - m) (by omega)
          have e1 : aStart0 + 1 - backF a b aStart0 i + m =
              aStart0 - (backF a b aStart0 i - 1 - m) := by omega
          have e2 : i + 1 - backF a b aStart0 i + m =
              i - (backF a b aStart0 i - 1 - m) := by omega
          rw [e1, e2]
          exact hb1
        · have hf1 := fwdF_match a b a.length (aStart0 + 1) (i + 1)
            (m - backF a b aStart0 i) (by omega)
          have e1 : aStart0 + 1 - backF a b aStart0 i + m =
              aStart0 + 1 + (m - backF a b aStart0 i) := by omega
          have e2 : i + 1 - backF a b aStart0 i + m =
              i + 1 + (m - backF a b aStart0 i) := by omega
          rw [e1, e2]
          exact hf1

theorem candAt_no_panic (a b : List Nat) (aStart0 i : Nat)
    (hlt : aStart0 < a.length) : candAt a b aStart0 i ≠ .panicked := by
  unfold candAt
  rw [if_neg (by omega)]
  simp only []
  split
  · simp
  · split <;> simp

/-- What a successful scan guarantees (given the invariant that rules
out the panic branch on every consulted entry). -/
theorem scanBF_found (tbl : Nat → Nat) (a b : List Nat) (h : Nat → Nat)
    (base hMask hBits : Nat) :
    ∀ fuel i v aS bS l,
      scanBF tbl a b h base hMask hBits fuel i v = .found aS bS l →
      hMinMatch ≤ l ∧ aS + l ≤ a.length ∧ bS + l ≤ b.length ∧
        ∀ m, m < l → a.getD (aS + m) 0 = b.getD (bS + m) 0 := by
  intro fuel
  induction fuel with
  | zero => intro i v aS bS l hres; simp [scanBF] at hres
  | succ fuel ih =>
    intro i v aS bS l hres
    unfold scanBF at hres
    split at hres
    case isFalse => simp at hres
    case isTrue hib =>
      simp only [] at hres
      split at hres
      · exact ih _ _ _ _ _ hres
      · split at hres
        · exact ih _ _ _ _ _ hres
        · split at hres
          case h_1 => simp at hres
          case h_2 => exact ih _ _ _ _ _ hres
          case h_3 aS' bS' l' hcand =>
            simp only [ScanRes.found.injEq] at hres
            obtain ⟨h1, h2, h3⟩ := hres
            subst h1 h2 h3
            exact candAt_found a b _ i aS' bS' l' hib hcand

/-- Under the table invariant (every live entry decodes to an offset
inside `a`), the scan never panics. -/
theorem scanBF_no_panic (tbl : Nat → Nat) (a b : List Nat) (h : Nat → Nat)
    (base hMask hBits : Nat)
    (hInv : ∀ k, base ≤ h k → h k - base < a.length) :
    ∀ fuel i v, scanBF tbl a b h base hMask hBits fuel i v ≠ .panicked := by
  intro fuel
  induction fuel with
  | zero => intro i v; simp [scanBF]
  | succ fuel ih =>
    intro i v
    unfold scanBF
    split
    case isFalse => simp
    case isTrue =>
      simp only []
      split
      · exact ih _ _
      · split
        · exact ih _ _
        · rename_i hvb
          have hlt : h ((v ^^^ tbl (b.getD i 0) ^^^ tbl (b.getD (i - hMinMatch) 0)) &&& hBits)
              - base < a.length :=
            hInv ((v ^^^ tbl (b.getD i 0) ^^^ tbl (b.getD (i - hMinMatch) 0)) &&& hBits)
              (by omega)
          split
          case h_1 hcand => exact absurd hcand (candAt_no_panic a b _ i hlt)
          case h_2 => exact ih _ _
          case h_3 => simp

/-- Two slices that agree pointwise (via `getD`) are equal. -/
theorem slice_eq_of_getD (a b : List Nat) (aS bS l : Nat)
    (ha : aS + l ≤ a.length) (hb : bS + l ≤ b.length)
    (hm : ∀ m, m < l → a.getD (aS + m) 0 = b.getD (bS + m) 0) :
    (a.drop aS).take l = (b.drop bS).take l := by
  apply List.ext_getElem
  · simp only [List.length_take, List.length_drop]
    omega
  · intro n h1 h2
    simp only [List.length_take, List.length_drop] at h1
    have hn : n < l := by omega
    have hna : aS + n < a.length := by omega
    have hnb : bS + n < b.length := by omega
    rw [List.getElem_take, List.getElem_drop, List.getElem_take, List.getElem_drop]
    have := hm n hn
    rw [List.getD_eq_getElem a 0 hna, List.getD_eq_getElem b 0 hnb] at this
    exact this

/-- Splitting `b` at a matched range. -/
theorem take_slice_drop (b : List Nat) (bS l : Nat) (h : bS + l ≤ b.length) :
    b.take bS ++ ((b.drop bS).take l ++ b.drop (bS + l)) = b := by
  have h1 : (b.drop bS).drop l = b.drop (bS + l) := by
    rw [List.drop_drop]
  rw [← h1, List.take_append_drop, List.take_append_drop]

/-- What the match loop guarantees: it succeeds (given the no-panic
invariant, or a nil table), its instructions are valid, their pieces
concatenate to exactly `b`, total literal length is at most `b.length`,
and every copy spans at least `hMinMatch` bytes. -/
theorem matchF_ok (tbl : Nat → Nat) (a : List Nat) (h : Nat → Nat)
    (hNil : Bool) (base hMask hBits : Nat)
    (hSafe : hNil = true ∨ ∀ k, base ≤ h k → h k - base < a.length) :
    ∀ fuel b, b.length + 1 ≤ fuel →
      ∃ instrs, matchF tbl a h hNil base hMask hBits fuel b = .ok instrs ∧
        (∀ ins ∈ instrs, instrOK a ins) ∧
        outJoin a instrs = b ∧
        litSum instrs ≤ b.length ∧
        (∀ st en, DInstr.cpy st en ∈ instrs → hMinMatch ≤ en - st) := by
  intro fuel
  induction fuel with
  | zero => intro b hb; omega
  | succ fuel ih =>
    intro b hb
    unfold matchF
    by_cases hshort : b.length ≤ hMinMatch ∨ hNil = true
    · rw [if_pos (by tauto)]
      by_cases hpos : 0 < b.length
      · rw [if_pos hpos]
        refine ⟨[.lit b], rfl, ?_, ?_, ?_, ?_⟩
        · intro ins hins
          simp only [List.mem_singleton] at hins
          subst hins
          exact List.length_pos.mp hpos
        · simp [outJoin, instrBytesOut]
        · simp [litSum]
        · intro st en hmem
          simp at hmem
      · rw [if_neg hpos]
        refine ⟨[], rfl, by simp, ?_, by simp [litSum], by simp⟩
        have : b = [] := List.length_eq_zero.mp (by omega)
        simp [this, outJoin]
    · have hcond : ¬ (b.length ≤ hMinMatch ∨ hNil = true) := hshort
      rw [if_neg (by simpa using hcond)]
      have hInv : ∀ k, base ≤ h k → h k - base < a.length := by
        rcases hSafe with h1 | h2
        · exact absurd (Or.inr h1) hcond
        · exact h2
      rcases hscan : scanBF tbl a b h base hMask hBits b.length hMinMatch (initHash tbl b) with
        _ | ⟨aS, bS, l⟩ | _
      -- panicked
      · exact absurd hscan (scanBF_no_panic tbl a b h base hMask hBits hInv _ _ _)
      -- found
      · obtain ⟨hl8, haL, hbL, hmm⟩ :=
          scanBF_found tbl a b h base hMask hBits _ _ _ _ _ _ hscan
        have hM : hMinMatch = 8 := rfl
        simp only []
        have hdrop : (b.drop (bS + l)).length + 1 ≤ fuel := by
          simp only [List.length_drop]
          omega
        obtain ⟨instrs, hmf, hok, hjoin, hlits, hcpys⟩ := ih (b.drop (bS + l)) hdrop
        rw [hmf]
        simp only []
        have hsl : (a.drop aS).take l = (b.drop bS).take l :=
          slice_eq_of_getD a b aS bS l haL hbL hmm
        have hcopyOK : instrOK a (.cpy aS (aS + l)) := by
          constructor
          · omega
          · omega
        have hcopyOut : instrBytesOut a (.cpy aS (aS + l)) = (b.drop bS).take l := by
          simp only [instrBytesOut]
          rw [show aS + l - aS = l from by omega]
          exact hsl
        by_cases hbS : 0 < bS
        · rw [if_pos hbS]
          refine ⟨_, rfl, ?_, ?_, ?_, ?_⟩
          · intro ins hins
            simp only [List.mem_cons] at hins
            rcases hins with h1 | h1 | h1
            · subst h1
              have : 0 < (b.take bS).length := by
                simp only [List.length_take]
                omega
              exact List.length_pos.mp this
            · subst h1
              exact hcopyOK
            · exact hok _ h1
          · simp only [outJoin, hcopyOut, hjoin]
            exact take_slice_drop b bS l hbL
          · simp only [litSum, List.length_take]
            have : (b.drop (bS + l)).length = b.length - (bS + l) := List.length_drop _ _
            omega
          · intro st en hmem
            simp only [List.mem_cons] at hmem
            rcases hmem with h1 | h1 | h1
            · simp at h1
            · obtain ⟨he1, he2⟩ := DInstr.cpy.inj h1
              omega
            · exact hcpys _ _ h1
        · rw [if_neg hbS]
          have hbS0 : bS = 0 := by omega
          refine ⟨_, rfl, ?_, ?_, ?_, ?_⟩
          · intro ins hins
            simp only [List.mem_cons] at hins
            rcases hins with h1 | h1
            · subst h1
              exact hcopyOK
            · exact hok _ h1
          · simp only [outJoin, hcopyOut, hjoin]
            have := take_slice_drop b bS l hbL
            rw [hbS0] at this ⊢
            simpa using this
          · simp only [litSum]
            have : (b.drop (bS + l)).length = b.length - (bS + l) := List.length_drop _ _
            omega
          · intro st en hmem
            simp only [List.mem_cons] at hmem
            rcases hmem with h1 | h1
            · obtain ⟨he1, he2⟩ := DInstr.cpy.inj h1
              omega
            · exact hcpys _ _ h1
      -- nomatch
      · refine ⟨[.lit b], rfl, ?_, ?_, ?_, ?_⟩
        · intro ins hins
          simp only [List.mem_singleton] at hins
          subst hins
          have : 0 < b.length := by omega
          exact List.length_pos.mp this
        · simp [outJoin, instrBytesOut]
        · simp [litSum]
        · intro st en hmem
          simp at hmem

/-- The hash loop only ever stores offsets below `a.length` (for the
fresh case: `base = offs = 0` and `a.length < 2^32`). -/
theorem hashLoopF_lt (tbl : Nat → Nat) (a : List Nat) (hMask hBits : Nat)
    (ha : a.length < 2 ^ 32) :
    ∀ fuel i v h0, (∀ k, h0 k < a.length) →
      ∀ k, hashLoopF tbl a 0 0 hMask hBits fuel i v h0 k < a.length := by
  intro fuel
  induction fuel with
  | zero => intro i v h0 hh k; exact hh k
  | succ fuel ih =>
    intro i v h0 hh k
    unfold hashLoopF
    split
    case isFalse => exact hh k
    case isTrue hi =>
      simp only []
      apply ih
      intro k'
      rw [ite_apply]
      split
      · split
        · omega
        · exact hh k'
      · exact hh k'

/-- After hashing a (long enough) reference from the fresh state, every
table entry is an offset inside `a`, the base is 0 and the table is
live. -/
theorem mhash_fresh (tbl : Nat → Nat) (a : List Nat)
    (ha8 : ¬ a.length < hMinMatch) (ha : a.length < 2 ^ 32) :
    (mhash tbl freshMState a 0).base = 0 ∧
      (mhash tbl freshMState a 0).hNil = false ∧
      ∀ k, (mhash tbl freshMState a 0).h k < a.length := by
  have hM : hMinMatch = 8 := rfl
  unfold mhash freshMState
  rw [if_neg ha8]
  simp only []
  refine ⟨by simp, by simp, ?_⟩
  apply hashLoopF_lt tbl a _ _ ha
  intro k
  simp only [if_pos trivial]
  omega

/-- The round trip of the diff engine itself, from the fresh state
`DPWriter.NewWriter` allocates: `Diff` succeeds and `Patch` applied to
its output (with anything appended after the end marker) reproduces `b`
exactly and consumes exactly the diff. -/
theorem diffBytes_patch (tbl : Nat → Nat) (a b : List Nat)
    (ha : a.length < 2 ^ 32) (hb : b.length < 2 ^ 32) :
    ∃ s st', diffBytes tbl freshMState a b = .ok (s, st') ∧
      ∀ rest, patch a (s ++ rest) = .ok (b, rest) := by
  have hSafe : (mhash tbl freshMState a 0).hNil = true ∨
      ∀ k, (mhash tbl freshMState a 0).base ≤ (mhash tbl freshMState a 0).h k →
        (mhash tbl freshMState a 0).h k - (mhash tbl freshMState a 0).base < a.length := by
    by_cases ha8 : a.length < hMinMatch
    · left
      unfold mhash freshMState
      rw [if_pos ha8]
    · right
      obtain ⟨hb0, _, hlt⟩ := mhash_fresh tbl a ha8 ha
      intro k _
      rw [hb0]
      simpa using hlt k
  obtain ⟨instrs, hmf, hok, hjoin, hlits, _⟩ :=
    matchF_ok tbl a (mhash tbl freshMState a 0).h (mhash tbl freshMState a 0).hNil
      (mhash tbl freshMState a 0).base (mhash tbl freshMState a 0).hMask
      (mhash tbl freshMState a 0).hBits hSafe (b.length + 1) b (by omega)
  refine ⟨emitAll 0 instrs ++ [0],
    { mhash tbl freshMState a 0 with
        base := ((mhash tbl freshMState a 0).base + a.length % 2 ^ 32) % 2 ^ 32 },
    ?_, ?_⟩
  · unfold diffBytes diffInstrs
    simp only []
    rw [hmf]
  · intro rest
    unfold patch
    have hassoc : (emitAll 0 instrs ++ [0]) ++ rest = emitAll 0 instrs ++ 0 :: rest := by
      simp
    rw [hassoc]
    have hfuel : instrs.length + 1 ≤ ((emitAll 0 instrs ++ [0]) ++ rest).length + 1 := by
      have := emitAll_length_ge 0 instrs
      simp only [List.length_append, List.length_cons]
      omega
    rw [hassoc] at hfuel
    have hmain := patchF_emitAll a (a.length + b.length)
      (by norm_num at ha hb ⊢; omega) instrs
      ((emitAll 0 instrs ++ 0 :: rest).length + 1) 0 [] [] rest hok
      (by omega) (by omega) hfuel
    simp only [Nat.cast_zero] at hmain
    rw [hmain, hjoin]
    simp

theorem readAllF_step (sources : List (List Nat)) (cd : Bool) (fuel : Nat)
    (lastSeg : Option (List Nat)) (s : List Nat) (r : SegResult)
    (h : readSegment sources cd lastSeg s = .ok r) (hm : r.more = true) :
    readAllF sources cd (fuel + 1) lastSeg s =
      match readAllF sources cd fuel r.lastSeg r.rest with
      | .error e => .error e
      | .ok out => .ok (r.written ++ out) := by
  have heq : readAllF sources cd (fuel + 1) lastSeg s =
      match readSegment sources cd lastSeg s with
      | .error e => .error e
      | .ok r =>
        if r.more then
          match readAllF sources cd fuel r.lastSeg r.rest with
          | .error e => .error e
          | .ok out => .ok (r.written ++ out)
        else .ok r.written := rfl
  rw [heq, h]
  simp only [hm, if_pos]

theorem readAllF_stop (sources : List (List Nat)) (cd : Bool) (fuel : Nat)
    (lastSeg : Option (List Nat)) (s : List Nat) (r : SegResult)
    (h : readSegment sources cd lastSeg s = .ok r) (hm : r.more = false) :
    readAllF sources cd (fuel + 1) lastSeg s = .ok r.written := by
  have heq : readAllF sources cd (fuel + 1) lastSeg s =
      match readSegment sources cd lastSeg s with
      | .error e => .error e
      | .ok r =>
        if r.more then
          match readAllF sources cd fuel r.lastSeg r.rest with
          | .error e => .error e
          | .ok out => .ok (r.written ++ out)
        else .ok r.written := rfl
  rw [heq, h]
  simp only [hm]
  norm_num

theorem readSource_eof (rest : List Nat) :
    readSource (0 :: 0 :: 0 :: rest) = some (EOFMarker, rest) := by
  have h : srefBytes EOFMarker = [0, 0, 0] := rfl
  have h2 : (0 : Nat) :: 0 :: 0 :: rest = srefBytes EOFMarker ++ rest := by
    rw [h]; rfl
  rw [h2]
  exact readSource_srefBytes EOFMarker rest (by decide)

/-- On the `EOFMarker` record `ReadSegment` stops, writing the held-back
last segment exactly in change-dump mode. -/
theorem readSegment_eof (sources : List (List Nat)) (changeDump : Bool)
    (lastSeg : Option (List Nat)) (rest : List Nat) :
    readSegment sources changeDump lastSeg (0 :: 0 :: 0 :: rest) =
      .ok { written := if changeDump then lastSeg.getD [] else [],
            text := [], orig := [], lastSeg := lastSeg, rest := rest,
            more := false } := by
  unfold readSegment
  rw [readSource_eof]
  simp only []
  rw [if_pos trivial]

/-- Decoding one well-formed record: `ReadSegment` reproduces the
segment the record was encoded from, provided the decoder's reference
fetch returns the slice the encoder diffed against. -/
theorem readSegment_record (tbl : Nat → Nat) (sources : List (List Nat))
    (changeDump : Bool) (lastSeg : Option (List Nat))
    (sr : SourceRef) (a b rest : List Nat)
    (ha : a.length < 2 ^ 32) (hb : b.length < 2 ^ 32) (hr : srefInRange sr)
    (hne : sr ≠ EOFMarker) (hcap : ¬ sr.length > MaxSourceLength)
    (hfetch : fetchOrig sources sr = .ok a) :
    ∃ recBytes st', taskDiff tbl freshMState sr a b = .ok (recBytes, st') ∧
      readSegment sources changeDump lastSeg (recBytes ++ rest) =
        .ok { written := if ¬ changeDump ∨ b ≠ a ∨ lastSeg = none then b else [],
              text := b, orig := a, lastSeg := some b, rest := rest,
              more := true } := by
  obtain ⟨d, st', hd, hpatch⟩ := diffBytes_patch tbl a b ha hb
  refine ⟨srefBytes sr ++ be32 (dpchecksum a) ++ d ++ be32 (dpchecksum b), st', ?_, ?_⟩
  · unfold taskDiff
    rw [hd]
  · unfold readSegment
    have hs : (srefBytes sr ++ be32 (dpchecksum a) ++ d ++ be32 (dpchecksum b)) ++ rest =
        srefBytes sr ++ (be32 (dpchecksum a) ++ (d ++ (be32 (dpchecksum b) ++ rest))) := by
      simp [List.append_assoc]
    rw [hs, readSource_srefBytes sr _ hr]
    simp only []
    rw [if_neg hne, if_neg hcap, hfetch]
    simp only []
    rw [readBE32_be32 _ _ (dpchecksum_lt a)]
    simp only []
    rw [hpatch (be32 (dpchecksum b) ++ rest)]
    simp only []
    rw [readBE32_be32 _ _ (dpchecksum_lt b)]
    simp only []
    rw [if_neg (by simp)]

theorem fetchOrig_notfound (sources : List (List Nat)) :
    fetchOrig sources SourceNotFound = .ok [] := by
  unfold fetchOrig
  rw [if_neg (by decide)]
  rw [if_neg (by simp)]
  rfl

theorem srefBytes_eof : srefBytes EOFMarker = [0, 0, 0] := rfl

/-- C1: Round-trip.  For every pair of byte sequences `(new, old)`
(here `b` and `a`), encoding `new` against reference `old` into a delta
pack (per-segment SourceRef, reference checksum, diff instruction
stream, output checksum, terminated by an EOFMarker record) and then
decoding that delta pack with the same reference reproduces `new`
byte-for-byte.  The hypotheses say the locator is a proper per-segment
ref (not one of the reserved markers) and that the decoder's sources
resolve it to the same bytes the encoder diffed against; sizes are
bounded by 2^32 as in the uint32-indexed hash table. -/
theorem C1_container_roundtrip (tbl : Nat → Nat) (sources : List (List Nat))
    (sr : SourceRef) (a b : List Nat)
    (ha : a.length < 2 ^ 32) (hb : b.length < 2 ^ 32)
    (hr : srefInRange sr)
    (hne : sr ≠ EOFMarker) (hnp : sr ≠ PreviousSegment)
    (hsnf : sr = SourceNotFound → a = [])
    (hsrc : sr ≠ SourceNotFound → ¬ sr.length > MaxSourceLength →
      0 ≤ sr.sourceNumber ∧ (sr.sourceNumber : Int) < sources.length ∧
      sr.start + sr.length ≤ (sources.getD sr.sourceNumber.toNat []).length ∧
      ((sources.getD sr.sourceNumber.toNat []).drop sr.start).take sr.length = a) :
    ∃ s, encodePack tbl sr a b = .ok s ∧ decodePack sources false s = .ok b := by
  by_cases hbig : sr.length > MaxSourceLength
  · -- the encoder degrades to SourceNotFound with an empty reference
    obtain ⟨recBytes, st', htask, hread⟩ :=
      readSegment_record tbl sources false none SourceNotFound [] b
        (srefBytes EOFMarker) (by norm_num) hb (by decide) (by decide)
        (by decide) (fetchOrig_notfound sources)
    refine ⟨recBytes ++ srefBytes EOFMarker, ?_, ?_⟩
    · unfold encodePack writeSegCap
      rw [if_pos hbig]
      simp only []
      rw [htask]
    · unfold decodePack
      have hlen : (recBytes ++ srefBytes EOFMarker).length + 1 =
          (recBytes.length + 3) + 1 := by
        simp [srefBytes_eof]
      rw [hlen, readAllF_step sources false _ none _ _ hread rfl]
      rw [show recBytes.length + 3 = (recBytes.length + 2) + 1 from rfl]
      rw [srefBytes_eof]
      rw [readAllF_stop sources false _ (some b) _ _
        (readSegment_eof sources false (some b) []) rfl]
      simp
  · by_cases hnf : sr = SourceNotFound
    · obtain ⟨recBytes, st', htask, hread⟩ :=
        readSegment_record tbl sources false none sr [] b
          (srefBytes EOFMarker) (by norm_num) hb hr hne hbig
          (hnf ▸ fetchOrig_notfound sources)
      refine ⟨recBytes ++ srefBytes EOFMarker, ?_, ?_⟩
      · unfold encodePack writeSegCap
        rw [if_neg hbig]
        simp only []
        rw [hsnf hnf]
        rw [htask]
      · unfold decodePack
        have hlen : (recBytes ++ srefBytes EOFMarker).length + 1 =
            (recBytes.length + 3) + 1 := by
          simp [srefBytes_eof]
        rw [hlen, readAllF_step sources false _ none _ _ hread rfl]
        rw [show recBytes.length + 3 = (recBytes.length + 2) + 1 from rfl]
        rw [srefBytes_eof]
        rw [readAllF_stop sources false _ (some b) _ _
          (readSegment_eof sources false (some b) []) rfl]
        simp
    · obtain ⟨h1, h2, h3, h4⟩ := hsrc hnf hbig
      have hfetch : fetchOrig sources sr = .ok a := by
        unfold fetchOrig
        rw [if_neg hnp, if_pos (by simpa using hnf)]
        rw [if_neg (by omega), if_neg (by omega), if_pos h3, h4]
      obtain ⟨recBytes, st', htask, hread⟩ :=
        readSegment_record tbl sources false none sr a b
          (srefBytes EOFMarker) ha hb hr hne hbig hfetch
      refine ⟨recBytes ++ srefBytes EOFMarker, ?_, ?_⟩
      · unfold encodePack writeSegCap
        rw [if_neg hbig]
        simp only []
        rw [htask]
      · unfold decodePack
        have hlen : (recBytes ++ srefBytes EOFMarker).length + 1 =
            (recBytes.length + 3) + 1 := by
          simp [srefBytes_eof]
        rw [hlen, readAllF_step sources false _ none _ _ hread rfl]
        rw [show recBytes.length + 3 = (recBytes.length + 2) + 1 from rfl]
        rw [srefBytes_eof]
        rw [readAllF_stop sources false _ (some b) _ _
          (readSegment_eof sources false (some b) []) rfl]
        simp

/-- C1 witness: the round trip at a concrete pair, reference fetched
from source 0 at offset 0. -/
theorem C1_container_roundtrip_witness :
    ∃ s, encodePack (fun _ => 0) ⟨0, 0, 3⟩ [10, 20, 30] [10, 20, 30, 40] = .ok s ∧
      decodePack [[10, 20, 30]] false s = .ok [10, 20, 30, 40] :=
  C1_container_roundtrip (fun _ => 0) [[10, 20, 30]] ⟨0, 0, 3⟩ [10, 20, 30]
    [10, 20, 30, 40] (by norm_num) (by norm_num) (by decide) (by decide)
    (by decide) (by decide) (by decide)

/-- Every read range the `Patch` loop records satisfies the cursor
bounds, whatever the input stream: entries are only appended after the
three guards pass. -/
theorem patchF_trace_bounds (a : List Nat) :
    ∀ fuel (cursor : Int) out trace s,
      (∀ p ∈ trace, 0 ≤ p.1 ∧ p.1 + (p.2 : Int) ≤ (a.length : Int)) →
      ∀ p ∈ (patchF a fuel cursor out trace s).1,
        0 ≤ p.1 ∧ p.1 + (p.2 : Int) ≤ (a.length : Int) := by
  intro fuel
  induction fuel with
  | zero => intro cursor out trace s htr p hp; exact htr p hp
  | succ fuel ih =>
    intro cursor out trace s htr p hp
    unfold patchF at hp
    rcases hrv : readVarint s with _ | ⟨instrFirst, s1⟩
    · rw [hrv] at hp
      exact htr p hp
    · rw [hrv] at hp
      simp only [] at hp
      split at hp
      · split at hp
        · exact htr p hp
        · exact ih _ _ _ _ (by exact htr) p hp
      · split at hp
        · exact htr p hp
        · rcases hrv2 : readVarint s1 with _ | ⟨copyMove, s2⟩
          · rw [hrv2] at hp
            exact htr p hp
          · rw [hrv2] at hp
            simp only [] at hp
            split at hp
            · exact htr p hp
            · split at hp
              · exact htr p hp
              · split at hp
                · exact htr p hp
                · rename_i h1 h2 h3
                  refine ih _ _ _ _ ?_ p hp
                  intro q hq
                  rw [List.mem_append] at hq
                  rcases hq with hq | hq
                  · exact htr q hq
                  · simp only [List.mem_singleton] at hq
                    subst hq
                    constructor
                    · omega
                    · simp only []
                      omega

/-- C6: Patch cursor bounds.  For every reference `A` (`a`) and every
diff byte stream, `Patch` never reads `A` outside `[0, len A]`: the
cursor starts at 0, and every copy's read range, checked against the
three fatal guards before the access, lies within bounds. -/
theorem C6_patch_cursor_bounds (a s : List Nat) :
    ∀ p ∈ patchReads a s, 0 ≤ p.1 ∧ p.1 + (p.2 : Int) ≤ (a.length : Int) := by
  intro p hp
  exact patchF_trace_bounds a (s.length + 1) 0 [] [] s (by simp) p hp

/-- C6 witness: a concrete copy-only diff over a 12-byte reference
reads exactly the range `[0, 12)`. -/
theorem C6_patch_cursor_bounds_witness :
    ((0 : Int), (12 : Nat)) ∈ patchReads [2, 3, 4, 5, 6, 7, 8, 9, 1, 10, 11, 12] [23, 0, 0] ∧
      (0 ≤ ((0 : Int), (12 : Nat)).1 ∧
        ((0 : Int), (12 : Nat)).1 + (((0 : Int), (12 : Nat)).2 : Int) ≤
          (([2, 3, 4, 5, 6, 7, 8, 9, 1, 10, 11, 12] : List Nat).length : Int)) := by
  have hmem : ((0 : Int), (12 : Nat)) ∈
      patchReads [2, 3, 4, 5, 6, 7, 8, 9, 1, 10, 11, 12] [23, 0, 0] := by
    rw [show patchReads [2, 3, 4, 5, 6, 7, 8, 9, 1, 10, 11, 12] [23, 0, 0] =
      [((0 : Int), (12 : Nat))] from rfl]
    simp
  exact ⟨hmem, C6_patch_cursor_bounds _ _ _ hmem⟩

/-- C7 counterexample: the claim fixes the window and minimum match at
24 bytes, but the source sets `hMinMatch = 8`. -/
theorem C7_counterexample : ¬ (hMinMatch = 24) := by decide

/-- C7 (amended): the rolling hash window and minimum accepted match
length are `hMinMatch = 8` bytes, and every copy instruction the match
loop emits from the fresh state covers at least `hMinMatch` bytes. -/
theorem C7_min_match (tbl : Nat → Nat) (a b : List Nat)
    (ha : a.length < 2 ^ 32) (hb : b.length < 2 ^ 32) :
    hMinMatch = 8 ∧
      ∀ instrs, (diffInstrs tbl freshMState a b).map Prod.fst = .ok instrs →
        ∀ st en, DInstr.cpy st en ∈ instrs → hMinMatch ≤ en - st := by
  refine ⟨rfl, ?_⟩
  intro instrs hdi st en hmem
  have hSafe : (mhash tbl freshMState a 0).hNil = true ∨
      ∀ k, (mhash tbl freshMState a 0).base ≤ (mhash tbl freshMState a 0).h k →
        (mhash tbl freshMState a 0).h k - (mhash tbl freshMState a 0).base < a.length := by
    by_cases ha8 : a.length < hMinMatch
    · left
      unfold mhash freshMState
      rw [if_pos ha8]
    · right
      obtain ⟨hb0, _, hlt⟩ := mhash_fresh tbl a ha8 ha
      intro k _
      rw [hb0]
      simpa using hlt k
  obtain ⟨instrs0, hmf, _, _, _, hcpys⟩ :=
    matchF_ok tbl a (mhash tbl freshMState a 0).h (mhash tbl freshMState a 0).hNil
      (mhash tbl freshMState a 0).base (mhash tbl freshMState a 0).hMask
      (mhash tbl freshMState a 0).hBits hSafe (b.length + 1) b (by omega)
  unfold diffInstrs at hdi
  simp only [] at hdi
  rw [hmf] at hdi
  simp only [Except.map, Except.ok.injEq] at hdi
  subst hdi
  exact hcpys st en hmem

/-- C7 witness: on a concrete 12-byte identity pair the fresh-state
diff emits the single copy `[0, 12)`, of length at least `hMinMatch`. -/
theorem C7_min_match_witness : hMinMatch = 8 ∧ hMinMatch ≤ 12 - 0 := by
  have h := C7_min_match buzTblSample [2, 3, 4, 5, 6, 7, 8, 9, 1, 10, 11, 12]
    [2, 3, 4, 5, 6, 7, 8, 9, 1, 10, 11, 12] (by norm_num) (by norm_num)
  have heval : (diffInstrs buzTblSample freshMState
      [2, 3, 4, 5, 6, 7, 8, 9, 1, 10, 11, 12]
      [2, 3, 4, 5, 6, 7, 8, 9, 1, 10, 11, 12]).map Prod.fst =
      .ok [DInstr.cpy 0 12] := by decide
  exact ⟨h.1, h.2 [DInstr.cpy 0 12] heval 0 12 (by simp)⟩

/-- C5 counterexample: diffing the one-byte sequence `[0]` against
itself emits a literal (`[2, 0, 0]`: literal of length 1, the byte,
terminator), not the claimed single whole-reference copy — there is no
identity fast path in `Diff`, and inputs no longer than `hMinMatch`
always take the literal path regardless of the hash table. -/
theorem C5_counterexample :
    (diffBytes buzTblSample freshMState [0] [0]).map Prod.fst = .ok [2, 0, 0] ∧
      ([2, 0, 0] : List Nat) ≠ identityCopyStream [0] := by
  constructor
  · decide
  · decide

/-- The literal path of the match loop: a non-empty `b` no longer than
`hMinMatch` (or a nil table) is emitted as one literal. -/
theorem matchF_short (tbl : Nat → Nat) (a : List Nat) (h : Nat → Nat)
    (hNil : Bool) (base hMask hBits fuel : Nat) (b : List Nat)
    (hcond : b.length ≤ hMinMatch ∨ hNil = true) (hpos : 0 < b.length) :
    matchF tbl a h hNil base hMask hBits (fuel + 1) b = .ok [.lit b] := by
  unfold matchF
  rw [if_pos (by tauto), if_pos hpos]

/-- C5 (amended): for every `x`, diffing `x` against itself produces a
stream that `Patch` applied to reference `x` decodes back to `x`; and
whenever `0 < len x ≤ hMinMatch` that stream is exactly one literal
instruction carrying all of `x` plus the zero terminator — not a copy.
(For longer `x` the stream is a mix of copies and literals depending on
the hash table contents; a single whole-input copy is not guaranteed.) -/
theorem C5_identity_diff (tbl : Nat → Nat) (x : List Nat)
    (hx : x.length < 2 ^ 32) :
    (∃ s st', diffBytes tbl freshMState x x = .ok (s, st') ∧
      ∀ rest, patch x (s ++ rest) = .ok (x, rest)) ∧
    (0 < x.length → x.length ≤ hMinMatch →
      (diffBytes tbl freshMState x x).map Prod.fst =
        .ok (putVarint (x.length : Int) ++ x ++ [0])) := by
  constructor
  · exact diffBytes_patch tbl x x hx hx
  · intro hpos hle
    unfold diffBytes diffInstrs
    simp only []
    rw [matchF_short tbl x _ _ _ _ _ x.length x (Or.inl hle) hpos]
    simp [emitAll, emitInstr, Except.map]

/-- C5 witness: at `x = [7]` the identity diff round-trips and is the
literal stream `[2, 7, 0]`. -/
theorem C5_identity_diff_witness :
    ((∃ s st', diffBytes buzTblSample freshMState [7] [7] = .ok (s, st') ∧
      ∀ rest, patch [7] (s ++ rest) = .ok ([7], rest)) ∧
    (0 < ([7] : List Nat).length → ([7] : List Nat).length ≤ hMinMatch →
      (diffBytes buzTblSample freshMState [7] [7]).map Prod.fst =
        .ok (putVarint (([7] : List Nat).length : Int) ++ [7] ++ [0]))) ∧
    putVarint (([7] : List Nat).length : Int) ++ [7] ++ [0] = [2, 7, 0] := by
  refine ⟨C5_identity_diff buzTblSample [7] (by norm_num), by decide⟩

/-- C8: Source-length cap.  When the matched reference slice's locator
length exceeds `MaxSourceLength` (10^8), `WriteSegment` silently
degrades the record to `SourceNotFound` with an empty reference; and a
record whose `SourceRef` Length exceeds `MaxSourceLength` makes the
decoder's `ReadSegment` fail fatally (before any other processing). -/
theorem C8_source_length_cap (source : SourceRef) (aText : List Nat)
    (sources : List (List Nat)) (changeDump : Bool)
    (lastSeg : Option (List Nat)) (rest : List Nat)
    (hr : srefInRange source)
    (hbig : source.length > MaxSourceLength) :
    writeSegCap source aText = (SourceNotFound, []) ∧
      readSegment sources changeDump lastSeg (srefBytes source ++ rest) =
        .error .tooLargeSource := by
  constructor
  · unfold writeSegCap
    rw [if_pos hbig]
  · unfold readSegment
    rw [readSource_srefBytes source rest hr]
    simp only []
    have hne : source ≠ EOFMarker := by
      intro h
      rw [h] at hbig
      exact absurd hbig (by decide)
    rw [if_neg hne, if_pos hbig]

/-- C8 witness: a locator of length 10^8 + 1 is degraded by the writer
and rejected by the reader. -/
theorem C8_source_length_cap_witness :
    writeSegCap ⟨1, 0, 100000001⟩ [5] = (SourceNotFound, []) ∧
      readSegment [] false none (srefBytes ⟨1, 0, 100000001⟩ ++ []) =
        .error .tooLargeSource :=
  C8_source_length_cap ⟨1, 0, 100000001⟩ [5] [] false none []
    (by decide) (by decide)

/-- C10 counterexample: a record with source number -3 but an oversized
Length field is rejected by the explicit length-cap validation, not by
the runtime index panic — so, as stated (for every record with source
number at most -3), the claim fails. -/
theorem C10_counterexample :
    readSegment [] false none (srefBytes ⟨-3, 0, 100000001⟩ ++ []) =
        .error .tooLargeSource ∧
      RErr.tooLargeSource ≠ RErr.negIndexPanic := by
  constructor
  · decide
  · decide

/-- C10 (amended): for every record whose SourceRef source number is -3
or below, or equals -2 with a nonzero start or length, and whose Length
field is within `MaxSourceLength`, the decoder's `ReadSegment` passes
all of its explicit validation errors — the source-number validation
only tests the upper bound — and the lookup
`dpr.sources[source.SourceNumber]` then indexes with a negative index,
failing with a runtime out-of-range panic. -/
theorem C10_negative_source_panic (sources : List (List Nat))
    (changeDump : Bool) (lastSeg : Option (List Nat))
    (sr : SourceRef) (rest : List Nat)
    (hr : srefInRange sr)
    (hcap : ¬ sr.length > MaxSourceLength)
    (hneg : sr.sourceNumber ≤ -3 ∨
      (sr.sourceNumber = -2 ∧ ¬ (sr.start = 0 ∧ sr.length = 0))) :
    readSegment sources changeDump lastSeg (srefBytes sr ++ rest) =
      .error .negIndexPanic := by
  unfold readSegment
  rw [readSource_srefBytes sr rest hr]
  simp only []
  have hne : sr ≠ EOFMarker := by
    intro h
    rw [h] at hneg
    rcases hneg with h1 | ⟨h1, _⟩ <;> simp [EOFMarker] at h1
  rw [if_neg hne, if_neg hcap]
  have hfetch : fetchOrig sources sr = .error .negIndexPanic := by
    unfold fetchOrig
    have hnp : sr ≠ PreviousSegment := by
      intro h
      rw [h] at hneg
      rcases hneg with h1 | ⟨_, h2⟩
      · simp [PreviousSegment] at h1
      · exact h2 ⟨rfl, rfl⟩
    have hnf : sr ≠ SourceNotFound := by
      intro h
      rw [h] at hneg
      rcases hneg with h1 | ⟨h1, _⟩ <;> simp [SourceNotFound] at h1
    rw [if_neg hnp, if_pos (by simpa using hnf)]
    have hsn : sr.sourceNumber < 0 := by
      rcases hneg with h1 | ⟨h1, _⟩ <;> omega
    rw [if_neg (by
      have h0 : (0 : Int) ≤ (sources.length : Int) := Int.natCast_nonneg _
      omega)]
    rw [if_pos hsn]
  rw [hfetch]

/-- C10 witness: a record with source number -3 and an in-range length
reaches the negative indexing and panics. -/
theorem C10_negative_source_panic_witness :
    readSegment [[1]] false none (srefBytes ⟨-3, 0, 0⟩ ++ []) =
      .error .negIndexPanic :=
  C10_negative_source_panic [[1]] false none ⟨-3, 0, 0⟩ []
    (by decide) (by decide) (by decide)

/-! ## Checksum enforcement (claim C3) and change-dump mode (claim C4) -/
theorem xor_pow_ne (x k : Nat) : x ^^^ 2 ^ k ≠ x := by
  intro h
  have h2 : (x ^^^ 2 ^ k) ^^^ x = x ^^^ x := by rw [h]
  rw [Nat.xor_comm x (2 ^ k), Nat.xor_assoc] at h2
  simp [Nat.xor_self] at h2

/-- A record whose checksum fields hold arbitrary values `ck1`, `ck2`:
the decoder fails with a checksum mismatch exactly when `ck2` differs
from the output's checksum, and the mismatch report consults `ck1` only
to choose its message; `ck1` alone is never enforced. -/
theorem readSegment_general (tbl : Nat → Nat) (sources : List (List Nat))
    (changeDump : Bool) (lastSeg : Option (List Nat))
    (sr : SourceRef) (a b rest : List Nat) (ck1 ck2 : Nat)
    (ha : a.length < 2 ^ 32) (hb : b.length < 2 ^ 32) (hr : srefInRange sr)
    (hne : sr ≠ EOFMarker) (hcap : ¬ sr.length > MaxSourceLength)
    (hfetch : fetchOrig sources sr = .ok a)
    (hck1 : ck1 < 2 ^ 32) (hck2 : ck2 < 2 ^ 32) :
    ∃ d st', diffBytes tbl freshMState a b = .ok (d, st') ∧
      readSegment sources changeDump lastSeg
          (srefBytes sr ++ (be32 ck1 ++ (d ++ (be32 ck2 ++ rest)))) =
        (if dpchecksum b ≠ ck2 then .error (.checksumMismatch (dpchecksum a = ck1))
         else .ok { written := if ¬ changeDump ∨ b ≠ a ∨ lastSeg = none then b else [],
                    text := b, orig := a, lastSeg := some b, rest := rest,
                    more := true }) := by
  obtain ⟨d, st', hd, hpatch⟩ := diffBytes_patch tbl a b ha hb
  refine ⟨d, st', hd, ?_⟩
  unfold readSegment
  rw [readSource_srefBytes sr _ hr]
  simp only []
  rw [if_neg hne, if_neg hcap, hfetch]
  simp only []
  rw [readBE32_be32 _ _ hck1]
  simp only []
  rw [hpatch (be32 ck2 ++ rest)]
  simp only []
  rw [readBE32_be32 _ _ hck2]

/-- C3 counterexample: flipping a bit of the reference-checksum field
of a well-formed record does not make `ReadSegment` fail — decode
succeeds and produces the same segment, because `sourceCksum` is only
consulted when the output checksum already mismatches. -/
theorem C3_counterexample :
    readSegment [] false none
        (srefBytes SourceNotFound ++
          (be32 (dpchecksum [] ^^^ 1) ++ ([2, 5, 0] ++ (be32 (dpchecksum [5]) ++ [])))) =
      .ok { written := [5], text := [5], orig := [], lastSeg := some [5],
            rest := [], more := true } := by
  decide

/-- C3 (amended): flipping any single bit (`2^k`, `k < 32`) of the
32-bit output-checksum field causes `ReadSegment` to fail with a
checksum-mismatch error; flipping a bit of the reference-checksum field
alone does not cause a failure — decode succeeds with the same output
(the reference checksum only selects the error message when the output
checksum already mismatches). -/
theorem C3_checksum_enforcement (tbl : Nat → Nat) (sources : List (List Nat))
    (sr : SourceRef) (a b rest : List Nat) (k : Nat)
    (ha : a.length < 2 ^ 32) (hb : b.length < 2 ^ 32) (hr : srefInRange sr)
    (hne : sr ≠ EOFMarker) (hcap : ¬ sr.length > MaxSourceLength)
    (hfetch : fetchOrig sources sr = .ok a)
    (hk : k < 32) :
    ∃ d st', diffBytes tbl freshMState a b = .ok (d, st') ∧
      readSegment sources false none
          (srefBytes sr ++ (be32 (dpchecksum a) ++ (d ++ (be32 (dpchecksum b ^^^ 2 ^ k) ++ rest)))) =
        .error (.checksumMismatch true) ∧
      readSegment sources false none
          (srefBytes sr ++ (be32 (dpchecksum a ^^^ 2 ^ k) ++ (d ++ (be32 (dpchecksum b) ++ rest)))) =
        .ok { written := b, text := b, orig := a, lastSeg := some b,
              rest := rest, more := true } := by
  have hk32 : (2 : Nat) ^ k < 2 ^ 32 := Nat.pow_lt_pow_right (by norm_num) hk
  obtain ⟨d, st', hd, hflip2⟩ := readSegment_general tbl sources false none sr a b rest
    (dpchecksum a) (dpchecksum b ^^^ 2 ^ k) ha hb hr hne hcap hfetch
    (dpchecksum_lt a) (Nat.xor_lt_two_pow (dpchecksum_lt b) hk32)
  obtain ⟨d2, st2, hd2, hflip1⟩ := readSegment_general tbl sources false none sr a b rest
    (dpchecksum a ^^^ 2 ^ k) (dpchecksum b) ha hb hr hne hcap hfetch
    (Nat.xor_lt_two_pow (dpchecksum_lt a) hk32) (dpchecksum_lt b)
  rw [hd] at hd2
  simp only [Except.ok.injEq, Prod.mk.injEq] at hd2
  obtain ⟨hd21, _⟩ := hd2
  subst hd21
  refine ⟨d, st', hd, ?_, ?_⟩
  · rw [hflip2, if_pos (Ne.symm (xor_pow_ne (dpchecksum b) k))]
    simp
  · rw [hflip1, if_neg (by simp)]
    simp

/-- C3 witness: at a concrete record (empty reference, segment `[5]`,
bit 0 flipped) the output-checksum flip fails and the
reference-checksum flip decodes. -/
theorem C3_checksum_enforcement_witness :
    ∃ d st', diffBytes buzTblSample freshMState [] [5] = .ok (d, st') ∧
      readSegment [] false none
          (srefBytes SourceNotFound ++
            (be32 (dpchecksum []) ++ (d ++ (be32 (dpchecksum [5] ^^^ 2 ^ 0) ++ [])))) =
        .error (.checksumMismatch true) ∧
      readSegment [] false none
          (srefBytes SourceNotFound ++
            (be32 (dpchecksum [] ^^^ 2 ^ 0) ++ (d ++ (be32 (dpchecksum [5]) ++ [])))) =
        .ok { written := [5], text := [5], orig := [], lastSeg := some [5],
              rest := [], more := true } :=
  C3_checksum_enforcement buzTblSample [] SourceNotFound [] [5] [] 0
    (by norm_num) (by norm_num) (by decide) (by decide) (by decide)
    (fetchOrig_notfound []) (by norm_num)

/-- C4 counterexample: in change-dump mode, a record whose
reconstructed segment `[5]` equals the immediately preceding segment
(`lastSeg = some [5]`) and is not the preamble is nonetheless written,
because the code compares the segment against the reference slice it
was patched from (`[9]`), not against the preceding segment. -/
theorem C4_counterexample :
    readSegment [[9]] true (some [5])
        (srefBytes ⟨0, 0, 1⟩ ++
          (be32 (dpchecksum [9]) ++ ([2, 5, 0] ++ (be32 (dpchecksum [5]) ++ [])))) =
      .ok { written := [5], text := [5], orig := [9], lastSeg := some [5],
            rest := [], more := true } := by
  decide

/-- C4 (amended): in change-dump mode `ReadSegment` writes the
reconstructed segment if and only if it differs from the reference
slice it was patched from, or it is the first segment (`lastSeg` still
nil, i.e. the preamble); and on reading the `EOFMarker` record the
held-back last segment is written unconditionally. -/
theorem C4_change_dump (tbl : Nat → Nat) (sources : List (List Nat))
    (lastSeg : Option (List Nat)) (sr : SourceRef) (a b rest : List Nat)
    (ha : a.length < 2 ^ 32) (hb : b.length < 2 ^ 32) (hr : srefInRange sr)
    (hne : sr ≠ EOFMarker) (hcap : ¬ sr.length > MaxSourceLength)
    (hfetch : fetchOrig sources sr = .ok a) :
    (∃ recBytes st', taskDiff tbl freshMState sr a b = .ok (recBytes, st') ∧
      readSegment sources true lastSeg (recBytes ++ rest) =
        .ok { written := if b ≠ a ∨ lastSeg = none then b else [],
              text := b, orig := a, lastSeg := some b, rest := rest,
              more := true }) ∧
    readSegment sources true lastSeg (0 :: 0 :: 0 :: rest) =
      .ok { written := lastSeg.getD [], text := [], orig := [],
            lastSeg := lastSeg, rest := rest, more := false } := by
  constructor
  · obtain ⟨recBytes, st', htask, hread⟩ :=
      readSegment_record tbl sources true lastSeg sr a b rest ha hb hr hne hcap hfetch
    refine ⟨recBytes, st', htask, ?_⟩
    rw [hread]
    have hif : (if ¬ (true : Bool) ∨ b ≠ a ∨ lastSeg = none then b else ([] : List Nat)) =
        (if b ≠ a ∨ lastSeg = none then b else []) := if_congr (by simp) rfl rfl
    rw [hif]
  · rw [readSegment_eof sources true lastSeg rest]
    simp

/-- C4 witness: at concrete values (reference `[9]`, segment `[5]`,
previous segment `[5]`) the segment is written since it differs from
its reference, and the EOFMarker record flushes the last segment. -/
theorem C4_change_dump_witness :
    (∃ recBytes st',
      taskDiff buzTblSample freshMState ⟨0, 0, 1⟩ [9] [5] = .ok (recBytes, st') ∧
      readSegment [[9]] true (some [5]) (recBytes ++ []) =
        .ok { written := if ([5] : List Nat) ≠ [9] ∨ (some [5] : Option (List Nat)) = none
                then [5] else [],
              text := [5], orig := [9], lastSeg := some [5], rest := [],
              more := true }) ∧
    readSegment [[9]] true (some [5]) (0 :: 0 :: 0 :: []) =
      .ok { written := (some [5] : Option (List Nat)).getD [], text := [],
            orig := [], lastSeg := some [5], rest := [], more := false } :=
  C4_change_dump buzTblSample [[9]] (some [5]) ⟨0, 0, 1⟩ [9] [5] []
    (by norm_num) (by norm_num) (by decide) (by decide) (by decide) (by decide)

/-- C9 counterexample: a reference whose `ReadNext` reaches the
requested key with a zero-length segment (for instance an empty
preamble at key 0).  `ReadTo` succeeds, so the selection keeps its
source ref `(1, 0, 0)` — a zero-length reference that is *not*
rewritten to `SourceNotFound`; the rewrite only happens on a key miss.
The record is emitted with a zero-length SourceRef at source 1. -/
theorem C9_counterexample :
    selectSource 0 [⟨BeforeStart, [⟨[], 0, ⟨1, 0, 0⟩, false⟩], ⟨1, 0, 0⟩⟩]
        (SourceNotFound, []) = (⟨1, 0, 0⟩, []) ∧
      writeSegCap (⟨1, 0, 0⟩ : SourceRef) [] = (⟨1, 0, 0⟩, []) ∧
      (⟨1, 0, 0⟩ : SourceRef) ≠ SourceNotFound ∧
      (⟨1, 0, 0⟩ : SourceRef).length = 0 := by
  refine ⟨?_, by decide, by decide, by decide⟩
  decide

theorem readToLoop_sn (dflt : SourceRef) (hdflt : dflt.sourceNumber ≠ 0) :
    ∀ ups reached key text sr,
      (∀ r ∈ ups, r.sr.sourceNumber ≠ 0) → sr.sourceNumber ≠ 0 →
      (readToLoop dflt ups reached key text sr).2.2.1.sourceNumber ≠ 0 := by
  intro ups
  induction ups with
  | nil =>
    intro reached key text sr _ hsr
    unfold readToLoop
    split
    · exact hdflt
    · exact hsr
  | cons r rest ih =>
    intro reached key text sr hups hsr
    unfold readToLoop
    split
    · simp only []
      split
      · exact hups r (List.mem_cons_self _ _)
      · exact ih r.key key r.text r.sr
          (fun q hq => hups q (List.mem_cons_of_mem _ hq))
          (hups r (List.mem_cons_self _ _))
    · exact hsr

theorem readTo_sn (dflt : SourceRef) (current : Int) (ups : List RNResult)
    (key : Int) (hdflt : dflt.sourceNumber ≠ 0)
    (hups : ∀ r ∈ ups, r.sr.sourceNumber ≠ 0) :
    (readTo dflt current ups key).2.1.sourceNumber ≠ 0 := by
  unfold readTo
  have h := readToLoop_sn dflt hdflt ups current key [] SourceNotFound hups
    (by decide)
  rcases hloop : readToLoop dflt ups current key [] SourceNotFound with
    ⟨text, reached, sr, ups'⟩
  rw [hloop] at h
  simp only [] at h ⊢
  split
  · exact h
  · exact (by decide : SourceNotFound.sourceNumber ≠ 0)

/-- C9 (amended): no record emitted by the encoder before `Close` has a
SourceRef equal to `EOFMarker` — but not because zero-length references
are rewritten (they are not, see the counterexample): the selected
source ref is either `SourceNotFound` (source number -1) or comes from
a reference chunker, whose `ReadNext` refs carry that reader's source
number, which is at least 1; and the oversize cap only substitutes
`SourceNotFound`.  Either way the source number is never 0, so the ref
is never `EOFMarker = (0, 0, 0)`. -/
theorem C9_no_eof_collision (key : Int) (refs : List ChunkSt)
    (href : ∀ st ∈ refs, st.dflt.sourceNumber ≠ 0 ∧
      ∀ r ∈ st.ups, r.sr.sourceNumber ≠ 0) :
    (writeSegCap (selectSource key refs (SourceNotFound, [])).1
        (selectSource key refs (SourceNotFound, [])).2).1 ≠ EOFMarker := by
  have hsel : ∀ (l : List ChunkSt) (acc : SourceRef × List Nat),
      (∀ st ∈ l, st.dflt.sourceNumber ≠ 0 ∧
        ∀ r ∈ st.ups, r.sr.sourceNumber ≠ 0) →
      acc.1.sourceNumber ≠ 0 →
      (selectSource key l acc).1.sourceNumber ≠ 0 := by
    intro l
    induction l with
    | nil => intro acc _ hacc; exact hacc
    | cons st rest ih =>
      intro acc hl hacc
      unfold selectSource
      obtain ⟨h1, h2⟩ := hl st (List.mem_cons_self _ _)
      have hsn := readTo_sn st.dflt st.current st.ups key h1 h2
      rcases hrt : readTo st.dflt st.current st.ups key with ⟨aText, sr, ups'⟩
      rw [hrt] at hsn
      simp only [] at hsn ⊢
      split
      · exact hsn
      · exact ih (sr, aText) (fun q hq => hl q (List.mem_cons_of_mem _ hq)) hsn
  have hmain := hsel refs (SourceNotFound, []) href (by decide)
  unfold writeSegCap
  split
  · decide
  · intro h
    rw [show (selectSource key refs (SourceNotFound, [])).1 = EOFMarker from h] at hmain
    exact hmain rfl

/-- C9 witness: with one reference whose stream carries source number
1, the selected (and capped) ref is not the EOF marker. -/
theorem C9_no_eof_collision_witness :
    (writeSegCap
        (selectSource 5 [⟨BeforeStart, [⟨[3], 5, ⟨1, 40, 1⟩, false⟩], ⟨1, 0, 0⟩⟩]
          (SourceNotFound, [])).1
        (selectSource 5 [⟨BeforeStart, [⟨[3], 5, ⟨1, 40, 1⟩, false⟩], ⟨1, 0, 0⟩⟩]
          (SourceNotFound, [])).2).1 ≠ EOFMarker :=
  C9_no_eof_collision 5 [⟨BeforeStart, [⟨[3], 5, ⟨1, 40, 1⟩, false⟩], ⟨1, 0, 0⟩⟩]
    (by decide)

/-- C2: Bzip2 random access.  The claim (and the spec) say `ReadAt`
discards exactly `off − OutBytePos` bytes of the located block and then
returns the same bytes as sequential decompression.  The code
initializes `startBytePos` to -1 and never updates it, so it discards
`off + 1` bytes: on a one-block file whose decompressed stream is
`[7, 8]` (block at bit position 32, `OutBytePos` 0), reading 1 byte at
offset 0 returns `[8]`, while sequential decompression at offset 0
yields `[7]`.  The claim is what the code intends; the code is wrong at
every offset. -/
theorem C2_bz2_readAt_bug :
    bz2ReadAt [(32, 0)] (fun bit => if bit = 32 then [7, 8] else []) 1 0 =
        .ok [8] ∧
      seqReadAt [7, 8] 1 0 = [7] ∧
      ([8] : List Nat) ≠ [7] := by
  refine ⟨by decide, by decide, by decide⟩

end Dltp
